import Mathlib

/-!
# plade: match filtering, junction costs, assembly extension, completion estimate

A shallow embedding of the assembly-planning core of the repository
(`internal/blast/filter.go`, `internal/defrag/node.go`,
`internal/assemble/assembly.go`, `internal/traverse/traverse.go`) together
with theorems about it.

Conventions of the embedding

* Go `int` is `Int` (no wrap-around: every quantity here is a position on a
  sequence or a fragment count, far below `2^63`).
* Go `float64`/`float32` amounts of money are exact rationals `ℚ`; the one
  float computation on integers, `math.Ceil(float64(d) / float64(m))`, is the
  exact ceiling `⌈d / m⌉` (the two agree while `|d|, |m| < 2^52` and
  `m ≠ 0`).
* A Go slice is a `List`; a run-time panic (index out of range) is `none`.
* The recursive closure `distFor` carries a bound `fuel` on its recursion
  depth and the map it updates as an explicit argument and result; the
  theorems show that `2 * len(nodes) + 3` is depth enough.
* The configuration (`config.NewConfig()`, the package variable `conf`, the
  field `n.conf`) is one immutable record passed explicitly.
* `sort.Slice` is library code: the embedding takes the sorting routine as an
  argument `srt` and the theorems assume only its contract `SortsBy`
  (a permutation of the input in which no element is `less` than an earlier
  one); `sortSlice` is a concrete routine that meets the contract.
-/

/-! ## Configuration -/

namespace config

/-- Settings under `Fragments` that are read by the sources. -/
structure FragmentsConfig where
  MinMatch : Int
  MaxCount : Int
  MinHomology : Int

/-- Settings under `Synthesis` that are read by the sources. -/
structure SynthesisConfig where
  MinLength : Int
  MaxLength : Int

/-- Settings under `PCR` that are read by the sources. -/
structure PCRConfig where
  BPCost : ℚ

/-- The record `config.Config`: the package is not among the sources, so the
record lists exactly the fields and the one method (`SynthCost`) the sources
read. -/
structure Config where
  Fragments : FragmentsConfig
  Synthesis : SynthesisConfig
  PCR : PCRConfig
  AddGeneVectorCost : ℚ
  SynthCost : Int → ℚ

/-- A configuration for worked examples: only the minimum match length and
the fragment budget vary. -/
def sample (minMatch maxCount : Int) : Config :=
  { Fragments := { MinMatch := minMatch, MaxCount := maxCount, MinHomology := 20 }
    Synthesis := { MinLength := 125, MaxLength := 500 }
    PCR := { BPCost := 1 }
    AddGeneVectorCost := 65
    SynthCost := fun l => (l : ℚ) }

/-- A small configuration for worked examples of `synthTo`: minimum homology
2, synthesis lengths between 3 and 6. -/
def tiny : Config :=
  { Fragments := { MinMatch := 5, MaxCount := 5, MinHomology := 2 }
    Synthesis := { MinLength := 3, MaxLength := 6 }
    PCR := { BPCost := 1 }
    AddGeneVectorCost := 65
    SynthCost := fun l => (l : ℚ) }

end config

/-! ## sort.Slice -/

/-- Contract of `sort.Slice(xs, less)`: the result is a rearrangement of the
input in which no element is `less` than one standing before it. -/
def SortsBy {α : Type} (less : α → α → Bool) (srt : List α → List α) : Prop :=
  ∀ l : List α, (srt l).Perm l ∧ (srt l).Pairwise (fun a b => less b a = false)

/-- A concrete sorting routine: insertion sort, which is what `sort.Slice`
runs on slices of fewer than twelve elements. -/
def sortSlice {α : Type} (less : α → α → Bool) (l : List α) : List α :=
  List.insertionSort (fun a b => less b a = false) l

/-! ## internal/blast/filter.go -/

namespace blast

/-- Modelled from the spec: the record `dvec.Match` (package `dvec` is not
among the sources); §3 gives it a source id, a sequence, a start and an
end. -/
structure Match where
  Entry : String
  Seq : String
  Start : Int
  End : Int
deriving DecidableEq, Repr

/-- Modelled from the spec: the method `Match.Length` of the missing package
`dvec`; §3 defines `length = end - start`. -/
def Match.Length (m : Match) : Int := m.End - m.Start

/-- The comparison handed to `sort.Slice` in `filter`: by start ascending,
and for equal starts the longer match first. -/
def matchLess (a b : Match) : Bool :=
  if a.Start ≠ b.Start then decide (a.Start < b.Start)
  else decide (a.Length > b.Length)

/-- The test of the first loop of `filter`: the match is appended to
`largeEnough` exactly when `m.Length() < c.Fragments.MinMatch`. -/
def lengthStep (c : config.Config) (m : Match) : Bool :=
  decide (m.Length < c.Fragments.MinMatch)

/-- One iteration of the last loop of `filter`: `m` is appended to
`properized` when that slice is empty or `m` ends after its last element. -/
def sweepStep (properized : List Match) (m : Match) : List Match :=
  match properized.getLast? with
  | none => properized ++ [m]
  | some last => if m.End > last.End then properized ++ [m] else properized

/-- The function `filter` of `internal/blast/filter.go`. -/
def filter (srt : List Match → List Match) (c : config.Config)
    (ms : List Match) : List Match :=
  let largeEnough := ms.filter (lengthStep c)
  let sorted := srt largeEnough
  sorted.foldl sweepStep []

/-- The last loop of `filter` read from the left: what it appends from `ms`
when the end of the last element of `properized` is `o` (`none` while
`properized` is empty). -/
def keepAfter : Option Int → List Match → List Match
  | _, [] => []
  | none, m :: ms => m :: keepAfter (some m.End) ms
  | some e, m :: ms =>
    if m.End > e then m :: keepAfter (some m.End) ms else keepAfter (some e) ms

end blast

/-! ## internal/defrag/node.go -/

namespace defrag

/-- The record `node` of package `defrag`. The field `conf` (a pointer to the
shared configuration) is passed explicitly to the methods that read it, and
the field `assemblies`, which none of the methods below reads, is left out. -/
structure node where
  id : String
  seq : String
  uniqueID : String
  start : Int
  «end» : Int
  cost : ℚ
deriving DecidableEq, Repr

/-- The method `distTo`: `other.start - n.end`, negative when the two
overlap. -/
def node.distTo (n other : node) : Int :=
  other.start - n.«end»

/-- The method `synthDist`: the number of synthetic fragments needed between
`n` and `other`. -/
def node.synthDist (n : node) (c : config.Config) (other : node) : Int :=
  let dist := n.distTo other
  if dist ≤ 5 then
    0
  else
    let floatDist : ℚ := max 1 (dist : ℚ)
    ⌈floatDist / (c.Synthesis.MaxLength : ℚ)⌉

/-- The method `costTo`: the amount charged for the junction from `n` to
`other`. -/
def node.costTo (n : node) (c : config.Config) (other : node) : ℚ :=
  let dist := n.distTo other
  if dist ≤ 5 then
    if dist < -(c.Fragments.MinHomology) then
      40 * c.PCR.BPCost + n.cost
    else
      ((40 + c.Fragments.MinHomology : Int) : ℚ) * c.PCR.BPCost + n.cost
  else
    let fragLength := c.Fragments.MinHomology + dist
    c.SynthCost fragLength + n.cost

/-- The method `reach`, from the first increment of `i` on: `ms` is
`nodes[i:]` for the incremented `i`, and the loop ends when `ms` is used up
(`i >= len(nodes)`) or at the `break`. -/
def reachLoop (n : node) (c : config.Config) :
    List node → Nat → Int → List Nat → List Nat
  | [], _, _, reachable => reachable
  | m :: ms, i, synthCount, reachable =>
    if n.distTo m ≤ -(c.Fragments.MinHomology) then
      reachLoop n c ms (i + 1) synthCount (reachable ++ [i])
    else if synthCount > 0 then
      reachLoop n c ms (i + 1) (synthCount - 1) (reachable ++ [i])
    else
      reachable

/-- The method `reach`: the indexes of the nodes after position `i` that `n`
can reach. The index `i` is a position of the slice, a natural number. -/
def node.reach (n : node) (c : config.Config) (nodes : List node) (i : Nat)
    (synthCount : Int) : List Nat :=
  reachLoop n c (nodes.drop (i + 1)) (i + 1) synthCount []

/-- Modelled from the spec: the kinds of a fragment. The declaration is not
among the sources, which use the constants `PCR` and `Synthetic`; §3 lists
`Existing|PCR|Synthetic`. -/
inductive FragType where
  | Existing
  | PCR
  | Synthetic
deriving DecidableEq, Repr

/-- Modelled from the spec: the record `Fragment`, whose declaration is not
among the sources; the fields are those the sources set (§3). -/
structure Fragment where
  ID : String
  Seq : String
  Entry : String
  «Type» : FragType
  Cost : ℚ
deriving DecidableEq, Repr

/-- The Go slice expression `s[start:end]` on a string: `none` when the
bounds are out of range. Sequences are written in a one-byte alphabet, so
byte offsets and character offsets agree. -/
def slice (s : String) (start «end» : Int) : Option String :=
  if 0 ≤ start ∧ start ≤ «end» ∧ «end» ≤ (s.length : Int) then
    some (String.mk ((s.toList.drop start.toNat).take («end» - start).toNat))
  else
    none

/-- The value of `fragL` in `synthTo` when the loop starts: the distance
divided by the fragment count (Go integer division), raised to
`Synthesis.MinLength`, plus twice `Fragments.MinHomology`. -/
def synthFragL (n : node) (c : config.Config) (next : node) : Int :=
  let fragC := n.synthDist c next
  let fragL := (n.distTo next).tdiv fragC
  let fragL := if c.Synthesis.MinLength > fragL then c.Synthesis.MinLength else fragL
  fragL + c.Fragments.MinHomology * 2

/-- The bounds `(start, end)` of the slice that iteration `fragIndex` of the
loop of `synthTo` cuts from the doubled sequence. -/
def synthWindow (n : node) (c : config.Config) (fragL : Int) (fragIndex : Nat) :
    Int × Int :=
  let start := n.«end» - c.Fragments.MinHomology
  let start := start + (fragIndex : Int) * fragL
  let «end» := start + fragL + c.Fragments.MinHomology
  (start, «end»)

/-- The loop of `synthTo` with `todo` iterations left, the next one being
iteration `fragIndex`; `none` when a slice is out of range. -/
def synthLoop (n : node) (c : config.Config) (fragL : Int) (seq : String) :
    Nat → Nat → List Fragment → Option (List Fragment)
  | 0, _, synthedFrags => some synthedFrags
  | todo + 1, fragIndex, synthedFrags =>
    match slice seq (synthWindow n c fragL fragIndex).1 (synthWindow n c fragL fragIndex).2 with
    | none => none
    | some s =>
      let sFrag : Fragment :=
        { ID := n.id ++ "-synthetic-" ++ toString (fragIndex + 1)
          Seq := s
          Entry := ""
          «Type» := FragType.Synthetic
          Cost := c.SynthCost (n.seq.length : Int) + n.cost }
      synthLoop n c fragL seq todo (fragIndex + 1) (synthedFrags ++ [sFrag])

/-- The method `synthTo`: the synthetic fragments between `n` and `next`,
cut from the doubled sequence `seq + seq`. -/
def node.synthTo (n : node) (c : config.Config) (next : node) (seq : String) :
    Option (List Fragment) :=
  let fragC := n.synthDist c next
  if fragC = 0 then
    some []
  else
    synthLoop n c (synthFragL n c next) (seq ++ seq) fragC.toNat 0 []

/-- The record `Match` of package `defrag`. Its declaration is not among the
sources; `new` reads the fields `Entry`, `Seq`, `Start` and `End`, those of
the match record of §3 of the specification. -/
abbrev Match := blast.Match

/-- The library function `strconv.Itoa`: the decimal rendering of an
integer, with a leading minus sign when it is negative. -/
def Itoa (i : Int) : String :=
  toString i

/-- The library function `strings.ToUpper`, character by character; the
sequences are written in ASCII letters. -/
def ToUpper (s : String) : String :=
  String.mk (s.toList.map Char.toUpper)

/-- The function `new`: the node of a match. The result is `none` when
`seqL` is 0, where `m.Start % seqL` divides by zero. Go's `%` truncates
toward zero. -/
def new (m : Match) (seqL : Int) (c : config.Config) : Option node :=
  if seqL = 0 then
    none
  else
    let cost : ℚ :=
      if "addgene".toList <:+: m.Entry.toList then c.AddGeneVectorCost else 0
    some
      { id := m.Entry
        seq := ToUpper m.Seq
        uniqueID := Itoa (m.Start.tmod seqL) ++ m.Entry
        start := m.Start
        «end» := m.End
        cost := cost }

/-- Whether a source id begins with a decimal digit. -/
def leadsWithDigit (s : String) : Bool :=
  match s.toList with
  | [] => false
  | ch :: _ => ch.isDigit

/-- The number that a list of decimal digits writes, most significant digit
first. -/
def decimalValue (ds : List Char) : Nat :=
  ds.foldl (fun acc ch => 10 * acc + (ch.toNat - 48)) 0

end defrag

/-! ## internal/assemble/assembly.go -/

namespace assemble

/-- The node type of package `assemble`. Its declaration is not among the
sources; `assembly.go` reads the field `uniqueID` and calls the methods
`synthDist` and `costTo`, which are taken from the node of package
`defrag`. -/
abbrev node := defrag.node

/-- The record `assembly`. -/
structure assembly where
  nodes : List node
  cost : ℚ
  synths : Int
deriving DecidableEq, Repr

/-- The method `len`: `len(a.nodes) + a.synths`. -/
def assembly.len (a : assembly) : Int :=
  (a.nodes.length : Int) + a.synths

/-- The loop of `contains` over a slice of nodes. -/
def containsLoop (n : node) : List node → Bool
  | [] => false
  | otherN :: rest =>
    if otherN.uniqueID = n.uniqueID then true else containsLoop n rest

/-- The method `contains`. -/
def assembly.contains (a : assembly) (n : node) : Bool :=
  containsLoop n a.nodes

/-- The method `add`, returning `(newAssembly, created, complete)`. The
result is `none` when the first statement indexes `a.nodes[len(a.nodes)-1]`
on an empty slice. -/
def assembly.add (a : assembly) (c : config.Config) (n : node) :
    Option (assembly × Bool × Bool) :=
  match a.nodes.getLast? with
  | none => none
  | some last =>
    let complete : Bool := decide (n.uniqueID = last.uniqueID)
    if complete then
      some (a, true, complete)
    else
      match a.nodes with
      | first :: _ =>
        let synths := first.synthDist c n
        if a.len + synths + 1 > c.Fragments.MaxCount then
          some ({ nodes := [], cost := 0, synths := 0 }, false, false)
        else
          some ({ nodes := n :: a.nodes
                  cost := n.costTo c first
                  synths := a.synths + synths }, true, false)
      | [] => some ({ nodes := [n], cost := 0, synths := 0 }, true, false)

end assemble

/-! ## internal/traverse/traverse.go -/

namespace traverse

/-- The record `node` of package `traverse`. -/
structure node where
  start : Int
  «end» : Int
deriving DecidableEq, Repr

/-- The Go map `dists` of type `map[node]int`, as a partial function. -/
abbrev Dists := node → Option Int

/-- The assignment `dists[f] = v`. -/
def Dists.set (dists : Dists) (f : node) (v : Int) : Dists :=
  fun g => if g = f then some v else dists g

/-- The statement `delete(dists, f)`. -/
def Dists.delete (dists : Dists) (f : node) : Dists :=
  fun g => if g = f then none else dists g

/-- The comparison handed to `sort.Slice` in `distanceToEnd`. -/
def nodeLess (a b : node) : Bool :=
  decide (a.start < b.start)

/-- The body of the first loop of `distFor`: the entry of `synthCount` for
the later node `n`. -/
def synthsToNext (maxSynth : Int) (f n : node) : Int :=
  let distToNext := n.start - f.«end»
  if distToNext > 0 then ⌈(distToNext : ℚ) / (maxSynth : ℚ)⌉ else 0

/-- The second loop of `distFor`, at iteration `j`: `ms` is what is left of
`nodes[i+1:]`, `ss` what is left of `synthCount`, and `call` is `distFor`
itself. -/
def distLoop (call : Nat → node → Dists → Option (Int × Dists)) (i : Nat) :
    Nat → List node → List Int → Int → Dists → Option (Int × Dists)
  | _, [], _, minDistNext, dists => some (minDistNext, dists)
  | _, _ :: _, [], _, _ => none
  | j, m :: ms, s :: ss, minDistNext, dists =>
    match call (i + j) m dists with
    | none => none
    | some (d, dists1) =>
      let distToFrag := 1 + s + d
      distLoop call i (j + 1) ms ss
        (if distToFrag < minDistNext then distToFrag else minDistNext) dists1

/-- The closure `distFor` of `distanceToEnd`, with the map `dists` threaded
through. `nodes` is the sorted slice with the sink appended. The first
argument bounds the depth of the recursion; the result is `none` when that
bound is reached or when the call indexes `nodes` or `synthCount` out of
range. -/
def distFor (nodes : List node) (lastBP maxSynth : Int) :
    Nat → Nat → node → Dists → Option (Int × Dists)
  | 0, _, _, _ => none
  | fuel + 1, i, f, dists =>
    match dists f with
    | some dist => some (dist, dists)
    | none =>
      if f.«end» ≥ lastBP then
        some (1, dists.set f 1)
      else
        let rest := nodes.drop (i + 1)
        let synthCount := rest.map (synthsToNext maxSynth f)
        match rest, synthCount with
        | next :: _, s0 :: _ =>
          match distFor nodes lastBP maxSynth fuel (i + 1) next dists with
          | none => none
          | some (d, dists1) =>
            let minDistNext := 1 + s0 + d
            match distLoop (distFor nodes lastBP maxSynth fuel) i 0 rest synthCount
                minDistNext dists1 with
            | none => none
            | some (minDist, dists2) => some (minDist, dists2.set f minDist)
        | _, _ => none

/-- The node `sink` that `distanceToEnd` appends: it starts and ends one
base past `lastBP`. -/
def sink (lastBP : Int) : node :=
  { start := lastBP + 1, «end» := lastBP + 1 }

/-- The function `distanceToEnd`; `fuel` bounds the depth of the recursion
of `distFor`. -/
def distanceToEnd (srt : List node → List node) (fuel : Nat) (nodes : List node)
    (seqL maxSynth : Int) : Option Dists :=
  let lastBP := 2 * seqL
  let sorted := srt nodes
  let withSink := sorted ++ [sink lastBP]
  match withSink with
  | [] => none
  | first :: _ =>
    match distFor withSink lastBP maxSynth fuel 0 first (fun _ => none) with
    | none => none
    | some (_, dists) => some (dists.delete (sink lastBP))

/-! ### Reference values for the completion estimate

The recurrence of §4.4 of the specification, evaluated from the last node
backward; used to state what `distFor` stores. -/

/-- The candidates `1 + s(f, m) + v(m)` for the nodes `m` of `later`, whose
values are `vals`. -/
def cands (maxSynth : Int) (f : node) (later : List node) (vals : List Int) : List Int :=
  List.zipWith (fun m v => 1 + synthsToNext maxSynth f m + v) later vals

/-- The least element of a list of candidates. -/
def minCand : List Int → Int
  | [] => 0
  | c :: cs => cs.foldl min c

/-- The value of every node of a list, by the recurrence: 1 for a node that
ends at or after `lastBP`, otherwise the least candidate over the nodes
after it. -/
def refVals (lastBP maxSynth : Int) : List node → List Int
  | [] => []
  | f :: later =>
    (if f.«end» ≥ lastBP then 1
      else minCand (cands maxSynth f later (refVals lastBP maxSynth later)))
      :: refVals lastBP maxSynth later

/-- The value of the first node of a list. -/
def refHead (lastBP maxSynth : Int) (l : List node) : Int :=
  (refVals lastBP maxSynth l).headD 0

/-- Every stored value is the reference value of its node, wherever the node
stands in `all`. -/
def Consistent (all : List node) (lastBP maxSynth : Int) (dists : Dists) : Prop :=
  ∀ (p : Nat) (f : node) (later : List node) (v : Int),
    all.drop p = f :: later → dists f = some v → v = refHead lastBP maxSynth (f :: later)

/-- When a node that ends before `lastBP` has a value, so has every node
after it. -/
def Closed (all : List node) (lastBP : Int) (dists : Dists) : Prop :=
  ∀ (p : Nat) (f : node) (later : List node),
    all.drop p = f :: later → (dists f).isSome = true → f.«end» < lastBP →
      ∀ m ∈ later, (dists m).isSome = true

/-- The invariant of the map `dists` during `distFor`. -/
def Good (all : List node) (lastBP maxSynth : Int) (dists : Dists) : Prop :=
  Consistent all lastBP maxSynth dists ∧ Closed all lastBP dists
    ∧ ∀ g, (dists g).isSome = true → g ∈ all

/-- The map `d2` has a value wherever `d1` has one. -/
def Extends (d1 d2 : Dists) : Prop :=
  ∀ g, (d1 g).isSome = true → (d2 g).isSome = true

end traverse

/-! ## Facts about sorting -/

theorem sortSlice_sortsBy {α : Type} (less : α → α → Bool)
    (htotal : ∀ a b, less a b = false ∨ less b a = false)
    (htrans : ∀ a b c, less b a = false → less c b = false → less c a = false) :
    SortsBy less (sortSlice less) := by
  intro l
  haveI : IsTotal α (fun a b => less b a = false) := ⟨fun a b => (htotal a b).symm⟩
  haveI : IsTrans α (fun a b => less b a = false) := ⟨fun a b c hab hbc => htrans a b c hab hbc⟩
  exact ⟨List.perm_insertionSort _ l, List.sorted_insertionSort _ l⟩

/-- A list that is strictly increasing for `less` is its only sorted
rearrangement. -/
theorem eq_of_perm_of_strict {α : Type} (less : α → α → Bool)
    (hirr : ∀ a, less a a = false) :
    ∀ (l l2 : List α), l.Pairwise (fun a b => less a b = true) → l2.Perm l →
      l2.Pairwise (fun a b => less b a = false) → l2 = l
  | [], l2, _, hp, _ => by simp at hp; exact hp
  | a :: t, l2, hl, hp, hs => by
    cases l2 with
    | nil => simp at hp
    | cons b t2 =>
      rw [List.pairwise_cons] at hl hs
      have hb : b ∈ a :: t := hp.subset (List.mem_cons_self _ _)
      rcases List.mem_cons.mp hb with hba | hbt
      · subst hba
        rw [eq_of_perm_of_strict less hirr t t2 hl.2 (List.Perm.cons_inv hp) hs.2]
      · exfalso
        have hab : less a b = true := hl.1 b hbt
        have ha : a ∈ b :: t2 := hp.symm.subset (List.mem_cons_self _ _)
        rcases List.mem_cons.mp ha with e | hat
        · rw [e, hirr] at hab; exact Bool.noConfusion hab
        · have := hs.1 a hat
          rw [hab] at this; exact Bool.noConfusion this

namespace blast

theorem matchLess_irrefl (a : Match) : matchLess a a = false := by
  simp [matchLess]

theorem matchLess_total (a b : Match) : matchLess a b = false ∨ matchLess b a = false := by
  unfold matchLess
  by_cases h : a.Start = b.Start
  · simp [h]; omega
  · have h2 : ¬ b.Start = a.Start := fun e => h e.symm
    simp [h, h2]; omega

theorem matchLess_trans (a b c : Match) (hab : matchLess b a = false)
    (hbc : matchLess c b = false) : matchLess c a = false := by
  unfold matchLess at *
  unfold Match.Length at *
  by_cases h1 : b.Start = a.Start <;> by_cases h2 : c.Start = b.Start <;>
    by_cases h3 : c.Start = a.Start <;> simp_all <;> omega

theorem sortSlice_matchLess : SortsBy matchLess (sortSlice matchLess) :=
  sortSlice_sortsBy matchLess matchLess_total matchLess_trans

/-- What `matchLess b a = false` says about starts and ends. -/
theorem not_matchLess_iff (a b : Match) :
    matchLess b a = false ↔
      a.Start ≤ b.Start ∧ (a.Start = b.Start → b.End ≤ a.End) := by
  unfold matchLess Match.Length
  by_cases h : b.Start = a.Start
  · simp [h]
  · have h2 : ¬ a.Start = b.Start := fun e => h e.symm
    simp [h, h2]

theorem matchLess_of_lt (a b : Match) (h : a.Start < b.Start) : matchLess a b = true := by
  unfold matchLess
  have h2 : ¬ a.Start = b.Start := by omega
  simp [h2, h]

theorem foldl_sweepStep (ms : List Match) :
    ∀ acc : List Match,
      ms.foldl sweepStep acc = acc ++ keepAfter (acc.getLast?.map Match.End) ms := by
  induction ms with
  | nil => intro acc; simp [keepAfter]
  | cons m ms ih =>
    intro acc
    rw [List.foldl_cons, ih]
    cases hlast : acc.getLast? with
    | none =>
      have hacc : acc = [] := by simpa using hlast
      subst hacc
      simp [sweepStep, keepAfter]
    | some last =>
      by_cases hgt : m.End > last.End
      · simp [sweepStep, keepAfter, hlast, hgt]
      · simp [sweepStep, keepAfter, hlast, hgt]

theorem filter_eq_keepAfter (srt : List Match → List Match) (c : config.Config)
    (ms : List Match) :
    filter srt c ms = keepAfter none (srt (ms.filter (lengthStep c))) := by
  simp [filter, foldl_sweepStep]

theorem keepAfter_sublist : ∀ (ms : List Match) (o : Option Int), (keepAfter o ms).Sublist ms
  | [], o => by simp [keepAfter]
  | m :: ms, none => by
    simp only [keepAfter]
    exact (keepAfter_sublist ms _).cons₂ m
  | m :: ms, some e => by
    simp only [keepAfter]
    split
    · exact (keepAfter_sublist ms _).cons₂ m
    · exact (keepAfter_sublist ms _).cons m

theorem keepAfter_gt : ∀ (ms : List Match) (e : Int) (x : Match),
    x ∈ keepAfter (some e) ms → e < x.End
  | [], e, x, hx => by simp [keepAfter] at hx
  | m :: ms, e, x, hx => by
    simp only [keepAfter] at hx
    split at hx
    · rcases List.mem_cons.mp hx with h | h
      · subst h; omega
      · have := keepAfter_gt ms m.End x h
        omega
    · exact keepAfter_gt ms e x hx

theorem keepAfter_pairwise : ∀ (ms : List Match) (o : Option Int),
    (keepAfter o ms).Pairwise (fun a b => a.End < b.End)
  | [], o => by simp [keepAfter]
  | m :: ms, none => by
    simp only [keepAfter]
    exact List.pairwise_cons.mpr ⟨fun x hx => keepAfter_gt ms _ x hx, keepAfter_pairwise ms _⟩
  | m :: ms, some e => by
    simp only [keepAfter]
    split
    · exact List.pairwise_cons.mpr ⟨fun x hx => keepAfter_gt ms _ x hx, keepAfter_pairwise ms _⟩
    · exact keepAfter_pairwise ms _

theorem keepAfter_eq_self : ∀ (ms : List Match) (o : Option Int),
    ms.Pairwise (fun a b => a.End < b.End) →
    (∀ e, o = some e → ∀ x ∈ ms, e < x.End) → keepAfter o ms = ms
  | [], o, _, _ => by simp [keepAfter]
  | m :: ms, none, hp, _ => by
    rw [List.pairwise_cons] at hp
    simp only [keepAfter]
    rw [keepAfter_eq_self ms _ hp.2 (fun e he x hx => by cases he; exact hp.1 x hx)]
  | m :: ms, some e, hp, ho => by
    rw [List.pairwise_cons] at hp
    have hm : m.End > e := ho e rfl m (List.mem_cons_self _ _)
    simp only [keepAfter, hm, if_true]
    rw [keepAfter_eq_self ms _ hp.2 (fun e he x hx => by cases he; exact hp.1 x hx)]

/-- The output of `filter` is strictly increasing in start and in end, and
`less` holds between any element and a later one. -/
theorem filter_strict (srt : List Match → List Match) (hsrt : SortsBy matchLess srt)
    (c : config.Config) (ms : List Match) :
    (filter srt c ms).Pairwise
      (fun a b => a.Start < b.Start ∧ a.End < b.End) := by
  rw [filter_eq_keepAfter]
  have hsorted := ((hsrt (ms.filter (lengthStep c))).2).sublist (keepAfter_sublist _ none)
  have hends := keepAfter_pairwise (srt (ms.filter (lengthStep c))) none
  refine (hsorted.and hends).imp ?_
  intro a b hab
  have h1 := (not_matchLess_iff a b).mp hab.1
  have h2 := hab.2
  refine ⟨?_, h2⟩
  rcases lt_or_eq_of_le h1.1 with h | h
  · exact h
  · have := h1.2 h; omega

theorem filter_mem_lengthStep (srt : List Match → List Match) (hsrt : SortsBy matchLess srt)
    (c : config.Config) (ms : List Match) (m : Match) (hm : m ∈ filter srt c ms) :
    m ∈ ms ∧ lengthStep c m = true := by
  rw [filter_eq_keepAfter] at hm
  have h1 := (keepAfter_sublist _ none).subset hm
  have h2 := (hsrt (ms.filter (lengthStep c))).1.subset h1
  simpa using h2

end blast

/-! ## Claims about `filter` -/

namespace blast

/-- C1 (the code departs from the claim): the length step of `filter` keeps
a match exactly when its length is below `Fragments.MinMatch`. A match of
length 10 is in the output when the minimum is 20 and is dropped when the
minimum is 5. -/
theorem filter_length_step_inverted :
    filter (sortSlice matchLess) (config.sample 20 5) [⟨"p1", "ACGT", 0, 10⟩]
        = [⟨"p1", "ACGT", 0, 10⟩]
      ∧ (⟨"p1", "ACGT", 0, 10⟩ : Match).Length < (config.sample 20 5).Fragments.MinMatch
      ∧ filter (sortSlice matchLess) (config.sample 5 5) [⟨"p1", "ACGT", 0, 10⟩] = []
      ∧ (config.sample 5 5).Fragments.MinMatch ≤ (⟨"p1", "ACGT", 0, 10⟩ : Match).Length := by
  decide

/-- C8: `filter` is idempotent: filtering the output of `filter` again gives
the same list, same matches in the same order. -/
theorem filter_idempotent (srt : List Match → List Match)
    (hsrt : SortsBy matchLess srt) (c : config.Config) (ms : List Match) :
    filter srt c (filter srt c ms) = filter srt c ms := by
  have hstrict := filter_strict srt hsrt c ms
  have hkeep : (filter srt c ms).filter (lengthStep c) = filter srt c ms :=
    List.filter_eq_self.mpr (fun m hm => (filter_mem_lengthStep srt hsrt c ms m hm).2)
  have hsort : srt (filter srt c ms) = filter srt c ms :=
    eq_of_perm_of_strict matchLess matchLess_irrefl _ _
      (hstrict.imp (fun {a b} hab => matchLess_of_lt a b hab.1))
      (hsrt _).1 (hsrt _).2
  have hsweep : keepAfter none (filter srt c ms) = filter srt c ms :=
    keepAfter_eq_self _ none (hstrict.imp (fun {a b} hab => hab.2))
      (fun e he => by cases he)
  conv_lhs => rw [filter_eq_keepAfter, hkeep, hsort, hsweep]

theorem filter_idempotent_witness :
    SortsBy matchLess (sortSlice matchLess) ∧
    filter (sortSlice matchLess) (config.sample 20 5)
        (filter (sortSlice matchLess) (config.sample 20 5)
          [⟨"p1", "", 3, 11⟩, ⟨"p2", "", 0, 12⟩, ⟨"p3", "", 0, 10⟩, ⟨"p4", "", 3, 14⟩])
      = filter (sortSlice matchLess) (config.sample 20 5)
          [⟨"p1", "", 3, 11⟩, ⟨"p2", "", 0, 12⟩, ⟨"p3", "", 0, 10⟩, ⟨"p4", "", 3, 14⟩] :=
  ⟨sortSlice_matchLess, filter_idempotent _ sortSlice_matchLess _ _⟩

/-- C9, as stated, fails: two matches with the same start and the same end
satisfy `A.start ≤ B.start` and `A.end ≥ B.end`, both pass the length step,
and `B` is in the output of `filter` on the list `B, A` (and, when `B` is the
same match as `A`, on either order). -/
theorem filter_subsumption_counterexample :
    (⟨"p1", "", 0, 10⟩ : Match).Start ≤ (⟨"p2", "", 0, 10⟩ : Match).Start
      ∧ (⟨"p1", "", 0, 10⟩ : Match).End ≥ (⟨"p2", "", 0, 10⟩ : Match).End
      ∧ lengthStep (config.sample 20 5) ⟨"p1", "", 0, 10⟩ = true
      ∧ lengthStep (config.sample 20 5) ⟨"p2", "", 0, 10⟩ = true
      ∧ (⟨"p2", "", 0, 10⟩ : Match) ∈
          filter (sortSlice matchLess) (config.sample 20 5)
            [⟨"p2", "", 0, 10⟩, ⟨"p1", "", 0, 10⟩]
      ∧ (⟨"p1", "", 0, 10⟩ : Match) ∈
          filter (sortSlice matchLess) (config.sample 20 5)
            [⟨"p1", "", 0, 10⟩, ⟨"p1", "", 0, 10⟩] := by
  decide

/-- C9, amended: for matches `A`, `B` with `A.start ≤ B.start`,
`A.end ≥ B.end` and not the same interval, both passing the length step of
`filter`, the output of `filter` on the two-element list, in either input
order, is `A` alone, and `B` is not in it. -/
theorem filter_subsumption (srt : List Match → List Match)
    (hsrt : SortsBy matchLess srt) (c : config.Config) (A B : Match)
    (hstart : A.Start ≤ B.Start) (hend : A.End ≥ B.End)
    (hne : ¬ (A.Start = B.Start ∧ A.End = B.End))
    (hA : lengthStep c A = true) (hB : lengthStep c B = true) :
    B ∉ filter srt c [A, B] ∧ B ∉ filter srt c [B, A]
      ∧ filter srt c [A, B] = [A] ∧ filter srt c [B, A] = [A] := by
  have hless : matchLess A B = true := by
    unfold matchLess Match.Length
    by_cases h : A.Start = B.Start
    · have : B.End < A.End := by
        rcases lt_or_eq_of_le hend with h1 | h1
        · exact h1
        · exact absurd ⟨h, h1.symm⟩ hne
      simp [h]; omega
    · have : A.Start < B.Start := by omega
      simp [h, this]
  have hAB : A ≠ B := by
    intro e; rw [e, matchLess_irrefl] at hless; exact Bool.noConfusion hless
  have hpw : [A, B].Pairwise (fun a b => matchLess a b = true) := by simp [hless]
  have h1 : srt [A, B] = [A, B] :=
    eq_of_perm_of_strict matchLess matchLess_irrefl _ _ hpw (hsrt _).1 (hsrt _).2
  have h2 : srt [B, A] = [A, B] :=
    eq_of_perm_of_strict matchLess matchLess_irrefl _ _ hpw
      ((hsrt _).1.trans (List.Perm.swap A B [])) (hsrt _).2
  have hk : keepAfter none [A, B] = [A] := by
    have : ¬ B.End > A.End := by omega
    simp [keepAfter, this]
  have e1 : filter srt c [A, B] = [A] := by
    rw [filter_eq_keepAfter]; simp [hA, hB, h1, hk]
  have e2 : filter srt c [B, A] = [A] := by
    rw [filter_eq_keepAfter]; simp [hA, hB, h2, hk]
  refine ⟨?_, ?_, e1, e2⟩
  · rw [e1]; simpa using fun e => hAB e.symm
  · rw [e2]; simpa using fun e => hAB e.symm

theorem filter_subsumption_witness :
    ¬ (⟨"p2", "", 3, 9⟩ : Match) ∈
        filter (sortSlice matchLess) (config.sample 20 5)
          [⟨"p1", "", 0, 10⟩, ⟨"p2", "", 3, 9⟩]
      ∧ ¬ (⟨"p2", "", 3, 9⟩ : Match) ∈
        filter (sortSlice matchLess) (config.sample 20 5)
          [⟨"p2", "", 3, 9⟩, ⟨"p1", "", 0, 10⟩]
      ∧ filter (sortSlice matchLess) (config.sample 20 5)
          [⟨"p1", "", 0, 10⟩, ⟨"p2", "", 3, 9⟩] = [⟨"p1", "", 0, 10⟩]
      ∧ filter (sortSlice matchLess) (config.sample 20 5)
          [⟨"p2", "", 3, 9⟩, ⟨"p1", "", 0, 10⟩] = [⟨"p1", "", 0, 10⟩] :=
  filter_subsumption (sortSlice matchLess) sortSlice_matchLess (config.sample 20 5)
    ⟨"p1", "", 0, 10⟩ ⟨"p2", "", 3, 9⟩ (by decide) (by decide) (by decide) (by decide)
    (by decide)

/-- C10: the output of `filter` is sorted by start and holds no subsumed
match: for positions `i < j` of the output, `start_i ≤ start_j` and
`end_i < end_j`, and neither of the two intervals contains the other. -/
theorem filter_sorted_no_subsumed (srt : List Match → List Match)
    (hsrt : SortsBy matchLess srt) (c : config.Config) (ms : List Match) :
    (filter srt c ms).Pairwise
      (fun a b => a.Start ≤ b.Start ∧ a.End < b.End
        ∧ ¬ (a.Start ≤ b.Start ∧ b.End ≤ a.End)
        ∧ ¬ (b.Start ≤ a.Start ∧ a.End ≤ b.End)) := by
  refine (filter_strict srt hsrt c ms).imp ?_
  intro a b hab
  refine ⟨by omega, hab.2, ?_, ?_⟩ <;> omega

theorem filter_sorted_no_subsumed_witness :
    SortsBy matchLess (sortSlice matchLess) ∧
    (filter (sortSlice matchLess) (config.sample 20 5)
        [⟨"p1", "", 3, 11⟩, ⟨"p2", "", 0, 12⟩, ⟨"p3", "", 0, 10⟩, ⟨"p4", "", 3, 14⟩]).Pairwise
      (fun a b => a.Start ≤ b.Start ∧ a.End < b.End
        ∧ ¬ (a.Start ≤ b.Start ∧ b.End ≤ a.End)
        ∧ ¬ (b.Start ≤ a.Start ∧ a.End ≤ b.End)) :=
  ⟨sortSlice_matchLess, filter_sorted_no_subsumed _ sortSlice_matchLess _ _⟩

end blast

/-! ## Claims about `costTo` and `add` -/

namespace defrag

/-- C3 (the code departs from the claim): in each of the three regimes
`a.costTo(b)` adds the cost of the receiver `a` to the bridging cost, and the
cost of the other node `b` does not enter. Here `a` costs 65 and every `b`
costs 30; the bridging costs are 40, 60 and 120. -/
theorem costTo_charges_receiver :
    node.costTo ⟨"addgene1", "ACGT", "0addgene1", 0, 100, 65⟩ (config.sample 20 5)
        ⟨"p2", "ACGT", "50p2", 50, 300, 30⟩ = 40 + 65
      ∧ node.costTo ⟨"addgene1", "ACGT", "0addgene1", 0, 100, 65⟩ (config.sample 20 5)
        ⟨"p2", "ACGT", "102p2", 102, 300, 30⟩ = 60 + 65
      ∧ node.costTo ⟨"addgene1", "ACGT", "0addgene1", 0, 100, 65⟩ (config.sample 20 5)
        ⟨"p2", "ACGT", "200p2", 200, 300, 30⟩ = 120 + 65 := by
  refine ⟨?_, ?_, ?_⟩ <;> norm_num [node.costTo, node.distTo, config.sample]

end defrag

namespace assemble

theorem containsLoop_iff (n : node) :
    ∀ l : List node, containsLoop n l = true ↔ ∃ o ∈ l, o.uniqueID = n.uniqueID
  | [] => by simp [containsLoop]
  | o :: rest => by
    by_cases h : o.uniqueID = n.uniqueID
    · simp [containsLoop, h]
    · simp [containsLoop, h, containsLoop_iff n rest]

/-- The three ways `add` returns on an assembly whose first node is `first`
and whose last node is `last`. -/
theorem add_cases (a : assembly) (c : config.Config) (n first last : node)
    (rest : List node) (h0 : a.nodes = first :: rest)
    (hlast : a.nodes.getLast? = some last) :
    (n.uniqueID = last.uniqueID ∧ a.add c n = some (a, true, true))
    ∨ (n.uniqueID ≠ last.uniqueID ∧ a.len + first.synthDist c n + 1 > c.Fragments.MaxCount
        ∧ a.add c n = some ({ nodes := [], cost := 0, synths := 0 }, false, false))
    ∨ (n.uniqueID ≠ last.uniqueID ∧ a.len + first.synthDist c n + 1 ≤ c.Fragments.MaxCount
        ∧ a.add c n = some ({ nodes := n :: a.nodes, cost := n.costTo c first,
                              synths := a.synths + first.synthDist c n }, true, false)) := by
  obtain ⟨nodes, cost, synths⟩ := a
  simp only at h0 hlast
  subst h0
  by_cases hc : n.uniqueID = last.uniqueID
  · left
    refine ⟨hc, ?_⟩
    simp [assembly.add, hlast, hc]
  · right
    by_cases hb : assembly.len ⟨first :: rest, cost, synths⟩ + first.synthDist c n + 1
        > c.Fragments.MaxCount
    · left
      refine ⟨hc, hb, ?_⟩
      simp [assembly.add, hlast, hc, hb]
    · right
      refine ⟨hc, by omega, ?_⟩
      simp [assembly.add, hlast, hc, hb]

theorem getLast?_of_cons (first : node) (rest : List node) :
    ∃ last, (first :: rest).getLast? = some last := by
  cases h : (first :: rest).getLast? with
  | none => simp at h
  | some l => exact ⟨l, rfl⟩

/-- A worked call of `add`: a node joined to a two-node assembly of cost 60. -/
theorem add_sample_eval :
    assembly.add
        { nodes := [⟨"p2", "ACGT", "100p2", 100, 210, 0⟩, ⟨"p3", "ACGT", "200p3", 200, 300, 0⟩]
          cost := 60, synths := 0 }
        (config.sample 20 5) ⟨"p1", "ACGT", "0p1", 0, 110, 0⟩
      = some ({ nodes := [⟨"p1", "ACGT", "0p1", 0, 110, 0⟩,
                          ⟨"p2", "ACGT", "100p2", 100, 210, 0⟩,
                          ⟨"p3", "ACGT", "200p3", 200, 300, 0⟩]
                cost := 60, synths := 0 }, true, false) := by
  have hid : ¬ ("0p1" : String) = "200p3" := by decide
  norm_num [assembly.add, assembly.len, defrag.node.synthDist, defrag.node.costTo,
    defrag.node.distTo, config.sample, hid]

/-- C2 (the code departs from the claim): the cost of the assembly that `add`
creates is the junction cost of the new link alone. The assembly below
carries cost 60; adding a node whose junction costs 60 gives an assembly of
cost 60, not 120. -/
theorem add_cost_not_cumulative :
    assembly.add
        { nodes := [⟨"p2", "ACGT", "100p2", 100, 210, 0⟩, ⟨"p3", "ACGT", "200p3", 200, 300, 0⟩]
          cost := 60, synths := 0 }
        (config.sample 20 5) ⟨"p1", "ACGT", "0p1", 0, 110, 0⟩
      = some ({ nodes := [⟨"p1", "ACGT", "0p1", 0, 110, 0⟩,
                          ⟨"p2", "ACGT", "100p2", 100, 210, 0⟩,
                          ⟨"p3", "ACGT", "200p3", 200, 300, 0⟩]
                cost := 60, synths := 0 }, true, false)
      ∧ defrag.node.costTo ⟨"p1", "ACGT", "0p1", 0, 110, 0⟩ (config.sample 20 5)
          ⟨"p2", "ACGT", "100p2", 100, 210, 0⟩ = 60
      ∧ (60 : ℚ) + defrag.node.costTo ⟨"p1", "ACGT", "0p1", 0, 110, 0⟩ (config.sample 20 5)
          ⟨"p2", "ACGT", "100p2", 100, 210, 0⟩ = 120 := by
  refine ⟨add_sample_eval, ?_, ?_⟩
  · norm_num [defrag.node.costTo, defrag.node.distTo, config.sample]
  · norm_num [defrag.node.costTo, defrag.node.distTo, config.sample]

/-- C4, as stated, fails: `add` prepends a node whose uniqueID is that of
the first node of a two-node assembly with distinct uniqueIDs; the result is
created, not complete, and holds the uniqueID twice. -/
theorem add_duplicate_counterexample :
    ([⟨"p2", "ACGT", "100p2", 100, 210, 0⟩, ⟨"p3", "ACGT", "200p3", 200, 300, 0⟩]
        : List node).Pairwise (fun p q => p.uniqueID ≠ q.uniqueID)
      ∧ ∃ r, assembly.add
          { nodes := [⟨"p2", "ACGT", "100p2", 100, 210, 0⟩,
                      ⟨"p3", "ACGT", "200p3", 200, 300, 0⟩]
            cost := 60, synths := 0 }
          (config.sample 20 5) ⟨"p2", "ACGT", "100p2", 100, 210, 0⟩ = some (r, true, false)
        ∧ ¬ r.nodes.Pairwise (fun p q => p.uniqueID ≠ q.uniqueID) := by
  refine ⟨by decide,
    { nodes := [⟨"p2", "ACGT", "100p2", 100, 210, 0⟩, ⟨"p2", "ACGT", "100p2", 100, 210, 0⟩,
                ⟨"p3", "ACGT", "200p3", 200, 300, 0⟩]
      cost := 40, synths := 0 }, ?_, by decide⟩
  have hid : ¬ ("100p2" : String) = "200p3" := by decide
  norm_num [assembly.add, assembly.len, defrag.node.synthDist, defrag.node.costTo,
    defrag.node.distTo, config.sample, hid]

/-- C4, amended: for a non-empty assembly `a` whose nodes have pairwise
distinct uniqueIDs and a node `n` with `a.contains(n) = false`, if `add(n)`
creates a new non-complete assembly then that assembly is `n` prepended to
the nodes of `a` and its nodes have pairwise distinct uniqueIDs. -/
theorem add_preserves_distinct (a : assembly) (c : config.Config) (n first : node)
    (rest : List node) (r : assembly) (h0 : a.nodes = first :: rest)
    (hdistinct : a.nodes.Pairwise (fun p q => p.uniqueID ≠ q.uniqueID))
    (hcontains : a.contains n = false)
    (hadd : a.add c n = some (r, true, false)) :
    r.nodes = n :: a.nodes ∧ r.nodes.Pairwise (fun p q => p.uniqueID ≠ q.uniqueID) := by
  obtain ⟨last, hlast⟩ : ∃ last, a.nodes.getLast? = some last := by
    rw [h0]; exact getLast?_of_cons first rest
  have hnodes : r.nodes = n :: a.nodes := by
    rcases add_cases a c n first last rest h0 hlast with h | h | h
    · rw [h.2] at hadd; simp at hadd
    · rw [h.2.2] at hadd; simp at hadd
    · rw [h.2.2] at hadd
      simp only [Option.some.injEq, Prod.mk.injEq, and_true] at hadd
      rw [← hadd]
  refine ⟨hnodes, ?_⟩
  rw [hnodes]
  refine List.pairwise_cons.mpr ⟨?_, hdistinct⟩
  intro o ho heq
  have : a.contains n = true := (containsLoop_iff n a.nodes).mpr ⟨o, ho, heq.symm⟩
  rw [hcontains] at this
  exact Bool.noConfusion this

theorem add_preserves_distinct_witness :
    (assembly.mk [⟨"p1", "ACGT", "0p1", 0, 110, 0⟩,
                  ⟨"p2", "ACGT", "100p2", 100, 210, 0⟩,
                  ⟨"p3", "ACGT", "200p3", 200, 300, 0⟩] 60 0).nodes
        = ⟨"p1", "ACGT", "0p1", 0, 110, 0⟩ ::
          (assembly.mk [⟨"p2", "ACGT", "100p2", 100, 210, 0⟩,
                        ⟨"p3", "ACGT", "200p3", 200, 300, 0⟩] 60 0).nodes
      ∧ (assembly.mk [⟨"p1", "ACGT", "0p1", 0, 110, 0⟩,
                  ⟨"p2", "ACGT", "100p2", 100, 210, 0⟩,
                  ⟨"p3", "ACGT", "200p3", 200, 300, 0⟩] 60 0).nodes.Pairwise
          (fun p q => p.uniqueID ≠ q.uniqueID) :=
  add_preserves_distinct
    (assembly.mk [⟨"p2", "ACGT", "100p2", 100, 210, 0⟩,
                  ⟨"p3", "ACGT", "200p3", 200, 300, 0⟩] 60 0)
    (config.sample 20 5) ⟨"p1", "ACGT", "0p1", 0, 110, 0⟩
    ⟨"p2", "ACGT", "100p2", 100, 210, 0⟩ [⟨"p3", "ACGT", "200p3", 200, 300, 0⟩]
    _ rfl (by decide) (by decide) add_sample_eval

/-- C5, as stated, fails for the closing node: the two-node assembly
`[p2, p3]` is within a budget of 2 and the node `p3` (the uniqueID of the last
node) has `a.len() + synthDist(a.nodes[0], n) + 1 = 3 > 2`, yet `add` returns
the assembly itself with `created = true` and `complete = true`: the
comparison with the last node comes before the budget test. -/
theorem add_closing_over_budget :
    (assembly.mk [⟨"p2", "ACGT", "100p2", 100, 210, 0⟩,
                  ⟨"p3", "ACGT", "200p3", 200, 300, 0⟩] 60 0).len
        ≤ (config.sample 20 2).Fragments.MaxCount
      ∧ (assembly.mk [⟨"p2", "ACGT", "100p2", 100, 210, 0⟩,
                      ⟨"p3", "ACGT", "200p3", 200, 300, 0⟩] 60 0).len
          + defrag.node.synthDist ⟨"p2", "ACGT", "100p2", 100, 210, 0⟩ (config.sample 20 2)
              ⟨"p3", "ACGT", "200p3", 200, 300, 0⟩ + 1
          > (config.sample 20 2).Fragments.MaxCount
      ∧ assembly.add (assembly.mk [⟨"p2", "ACGT", "100p2", 100, 210, 0⟩,
                                   ⟨"p3", "ACGT", "200p3", 200, 300, 0⟩] 60 0)
          (config.sample 20 2) ⟨"p3", "ACGT", "200p3", 200, 300, 0⟩
        = some (assembly.mk [⟨"p2", "ACGT", "100p2", 100, 210, 0⟩,
                             ⟨"p3", "ACGT", "200p3", 200, 300, 0⟩] 60 0, true, true) := by
  refine ⟨by decide, by decide, by decide⟩

/-- C5, amended: `add` keeps the fragment budget. For a non-empty assembly `a`
with `a.len() ≤ Fragments.MaxCount` and any node `n`, `add(n)` returns, and
whenever it returns `created = true` the returned assembly `r` has
`r.len() ≤ Fragments.MaxCount`. For a node `n` whose uniqueID differs from
that of the last node of `a`: with
`a.len() + synthDist(a.nodes[0], n) + 1 > MaxCount` the call returns
`created = false` together with the empty assembly, never a shortened one,
and otherwise it returns `n` prepended to all the nodes of `a`. For a node `n`
whose uniqueID is that of the last node of `a`, the call returns `a` itself
with `created = true` and `complete = true`, whatever that sum is. -/
theorem add_keeps_budget (a : assembly) (c : config.Config) (n first last : node)
    (rest : List node) (h0 : a.nodes = first :: rest)
    (hlast : a.nodes.getLast? = some last)
    (hbudget : a.len ≤ c.Fragments.MaxCount) :
    (∃ r created complete, a.add c n = some (r, created, complete))
      ∧ (∀ r complete, a.add c n = some (r, true, complete) →
          r.len ≤ c.Fragments.MaxCount)
      ∧ (n.uniqueID ≠ last.uniqueID →
          a.len + first.synthDist c n + 1 > c.Fragments.MaxCount →
          a.add c n = some ({ nodes := [], cost := 0, synths := 0 }, false, false))
      ∧ (n.uniqueID ≠ last.uniqueID →
          a.len + first.synthDist c n + 1 ≤ c.Fragments.MaxCount →
          a.add c n = some ({ nodes := n :: a.nodes, cost := n.costTo c first,
                              synths := a.synths + first.synthDist c n }, true, false))
      ∧ (n.uniqueID = last.uniqueID → a.add c n = some (a, true, true))
      ∧ (∀ r created, a.add c n = some (r, created, false) →
          a.len + first.synthDist c n + 1 > c.Fragments.MaxCount →
          created = false ∧ r = { nodes := [], cost := 0, synths := 0 }) := by
  rcases add_cases a c n first last rest h0 hlast with h | h | h
  · refine ⟨⟨_, _, _, h.2⟩, ?_, fun hne => absurd h.1 hne, fun hne => absurd h.1 hne,
      fun _ => h.2, ?_⟩
    · intro r complete hr
      rw [h.2] at hr
      simp only [Option.some.injEq, Prod.mk.injEq, true_and] at hr
      rw [← hr.1]; exact hbudget
    · intro r created hr
      rw [h.2] at hr; simp at hr
  · refine ⟨⟨_, _, _, h.2.2⟩, ?_, fun _ _ => h.2.2, ?_, fun he => absurd he h.1, ?_⟩
    · intro r complete hr
      rw [h.2.2] at hr; simp at hr
    · intro _ hle
      have := h.2.1
      omega
    · intro r created hr _
      rw [h.2.2] at hr
      simp only [Option.some.injEq, Prod.mk.injEq, and_true] at hr
      exact ⟨hr.2.symm, hr.1.symm⟩
  · refine ⟨⟨_, _, _, h.2.2⟩, ?_, ?_, fun _ _ => h.2.2, fun he => absurd he h.1, ?_⟩
    · intro r complete hr
      rw [h.2.2] at hr
      simp only [Option.some.injEq, Prod.mk.injEq, true_and] at hr
      rw [← hr.1]
      have := h.2.1
      simp only [assembly.len, List.length_cons, Nat.cast_add, Nat.cast_one] at this ⊢
      omega
    · intro _ hover
      have := h.2.1
      omega
    · intro r created hr hover
      have := h.2.1
      omega

theorem add_keeps_budget_witness :
    (assembly.mk [⟨"p2", "ACGT", "100p2", 100, 210, 0⟩,
                  ⟨"p3", "ACGT", "200p3", 200, 300, 0⟩] 60 0).len
        ≤ (config.sample 20 2).Fragments.MaxCount
      ∧ assembly.add (assembly.mk [⟨"p2", "ACGT", "100p2", 100, 210, 0⟩,
                                   ⟨"p3", "ACGT", "200p3", 200, 300, 0⟩] 60 0)
          (config.sample 20 2) ⟨"p1", "ACGT", "0p1", 0, 110, 0⟩
        = some ({ nodes := [], cost := 0, synths := 0 }, false, false) :=
  ⟨by decide,
   (add_keeps_budget
      (assembly.mk [⟨"p2", "ACGT", "100p2", 100, 210, 0⟩,
                    ⟨"p3", "ACGT", "200p3", 200, 300, 0⟩] 60 0)
      (config.sample 20 2) ⟨"p1", "ACGT", "0p1", 0, 110, 0⟩
      ⟨"p2", "ACGT", "100p2", 100, 210, 0⟩ ⟨"p3", "ACGT", "200p3", 200, 300, 0⟩
      [⟨"p3", "ACGT", "200p3", 200, 300, 0⟩]
      rfl rfl (by decide)).2.2.1 (by decide) (by decide)⟩

end assemble

/-! ## Facts about the completion estimate -/

namespace traverse

theorem foldl_min_assoc : ∀ (l : List Int) (a b : Int),
    l.foldl min (min a b) = min a (l.foldl min b)
  | [], a, b => rfl
  | c :: cs, a, b => by
    simp only [List.foldl_cons]
    rw [min_assoc, foldl_min_assoc cs a (min b c)]

theorem foldl_min_le : ∀ (l : List Int) (a : Int),
    l.foldl min a ≤ a ∧ ∀ c ∈ l, l.foldl min a ≤ c
  | [], a => by simp
  | c :: cs, a => by
    have ih := foldl_min_le cs (min a c)
    simp only [List.foldl_cons]
    refine ⟨le_trans ih.1 (min_le_left _ _), ?_⟩
    intro x hx
    rcases List.mem_cons.mp hx with h | h
    · subst h; exact le_trans ih.1 (min_le_right _ _)
    · exact ih.2 x h

theorem foldl_min_mem : ∀ (l : List Int) (a : Int),
    l.foldl min a = a ∨ l.foldl min a ∈ l
  | [], a => by simp
  | c :: cs, a => by
    simp only [List.foldl_cons]
    rcases foldl_min_mem cs (min a c) with h | h
    · rw [h]
      rcases min_choice a c with h2 | h2
      · left; exact h2
      · right; rw [h2]; exact List.mem_cons_self _ _
    · right; exact List.mem_cons_of_mem _ h

theorem minCand_le (c : Int) (cs : List Int) : ∀ x ∈ c :: cs, minCand (c :: cs) ≤ x := by
  intro x hx
  rcases List.mem_cons.mp hx with h | h
  · subst h; exact (foldl_min_le cs x).1
  · exact (foldl_min_le cs c).2 x h

theorem minCand_mem (c : Int) (cs : List Int) : minCand (c :: cs) ∈ c :: cs := by
  rcases foldl_min_mem cs c with h | h
  · simp only [minCand]; rw [h]; exact List.mem_cons_self _ _
  · exact List.mem_cons_of_mem _ h

theorem refVals_cons (lastBP maxSynth : Int) (f : node) (later : List node) :
    refVals lastBP maxSynth (f :: later)
      = refHead lastBP maxSynth (f :: later) :: refVals lastBP maxSynth later := by
  simp [refHead, refVals]

theorem refHead_base (lastBP maxSynth : Int) (f : node) (later : List node)
    (h : f.«end» ≥ lastBP) : refHead lastBP maxSynth (f :: later) = 1 := by
  simp [refHead, refVals, h]

theorem refHead_step (lastBP maxSynth : Int) (f : node) (later : List node)
    (h : f.«end» < lastBP) :
    refHead lastBP maxSynth (f :: later)
      = minCand (cands maxSynth f later (refVals lastBP maxSynth later)) := by
  have h2 : ¬ f.«end» ≥ lastBP := by omega
  simp [refHead, refVals, h2]

theorem cands_cons (lastBP maxSynth : Int) (f m : node) (ms : List node) :
    cands maxSynth f (m :: ms) (refVals lastBP maxSynth (m :: ms))
      = (1 + synthsToNext maxSynth f m + refHead lastBP maxSynth (m :: ms))
          :: cands maxSynth f ms (refVals lastBP maxSynth ms) := by
  rw [refVals_cons]; simp [cands]

/-- A candidate of `later` is the candidate of a node at some position of
`later`, with the reference value of that node. -/
theorem mem_cands_iff (lastBP maxSynth : Int) (f : node) :
    ∀ (later : List node) (c : Int),
      c ∈ cands maxSynth f later (refVals lastBP maxSynth later) ↔
        ∃ q m rest, later.drop q = m :: rest
          ∧ c = 1 + synthsToNext maxSynth f m + refHead lastBP maxSynth (m :: rest)
  | [], c => by simp [cands]
  | m :: ms, c => by
    rw [cands_cons, List.mem_cons, mem_cands_iff lastBP maxSynth f ms c]
    constructor
    · rintro (h | ⟨q, m2, rest, hq, hc⟩)
      · exact ⟨0, m, ms, rfl, h⟩
      · exact ⟨q + 1, m2, rest, by simpa using hq, hc⟩
    · rintro ⟨q, m2, rest, hq, hc⟩
      cases q with
      | zero =>
        simp only [List.drop_zero, List.cons.injEq] at hq
        left; rw [hc, hq.1, hq.2]
      | succ q =>
        right
        exact ⟨q, m2, rest, by simpa using hq, hc⟩

theorem mem_iff_drop {α : Type} (x : α) : ∀ (l : List α),
    x ∈ l ↔ ∃ q rest, l.drop q = x :: rest
  | [] => by simp
  | y :: ys => by
    rw [List.mem_cons, mem_iff_drop x ys]
    constructor
    · rintro (h | ⟨q, rest, hq⟩)
      · exact ⟨0, ys, by rw [h]; rfl⟩
      · exact ⟨q + 1, rest, by simpa using hq⟩
    · rintro ⟨q, rest, hq⟩
      cases q with
      | zero =>
        simp only [List.drop_zero, List.cons.injEq] at hq
        left; exact hq.1.symm
      | succ q => right; exact ⟨q, rest, by simpa using hq⟩

theorem drop_succ_of_drop {α : Type} (l : List α) (p : Nat) (x : α) (rest : List α)
    (h : l.drop p = x :: rest) : l.drop (p + 1) = rest := by
  have : l.drop (p + 1) = (l.drop p).drop 1 := by rw [List.drop_drop]
  rw [this, h]; rfl

theorem Extends.refl (d : Dists) : Extends d d := fun _ h => h

theorem Extends.trans {d1 d2 d3 : Dists} (h12 : Extends d1 d2) (h23 : Extends d2 d3) :
    Extends d1 d3 := fun g h => h23 g (h12 g h)

theorem Extends.set (d : Dists) (f : node) (v : Int) : Extends d (d.set f v) := by
  intro g hg
  unfold Dists.set
  split
  · rfl
  · exact hg

theorem set_self (d : Dists) (f : node) (v : Int) : (d.set f v) f = some v := by
  simp [Dists.set]

theorem set_isSome_iff (d : Dists) (f g : node) (v : Int) :
    ((d.set f v) g).isSome = true ↔ g = f ∨ (d g).isSome = true := by
  unfold Dists.set
  by_cases h : g = f
  · simp [h]
  · simp [h]

end traverse

namespace traverse

theorem Good.set_base {all : List node} {L M : Int} {d : Dists} (hG : Good all L M d)
    (f : node) (hf : f ∈ all) (hbase : f.«end» ≥ L) : Good all L M (d.set f 1) := by
  refine ⟨?_, ?_, ?_⟩
  · intro p g later v hp hv
    by_cases hg : g = f
    · subst hg
      rw [set_self] at hv
      rw [refHead_base L M g later hbase]
      exact (Option.some.inj hv).symm
    · have : (d.set f 1) g = d g := by simp [Dists.set, hg]
      rw [this] at hv
      exact hG.1 p g later v hp hv
  · intro p g later hp hsome hstep m hm
    rcases (set_isSome_iff d f g 1).mp hsome with hg | hg
    · subst hg; omega
    · exact Extends.set d f 1 m (hG.2.1 p g later hp hg hstep m hm)
  · intro g hg
    rcases (set_isSome_iff d f g 1).mp hg with h | h
    · rw [h]; exact hf
    · exact hG.2.2 g h

theorem Good.set_step {all : List node} {L M : Int} {d : Dists} (hG : Good all L M d)
    (f : node) (later : List node) (hf : f ∈ all)
    (huniq : ∀ q later2, all.drop q = f :: later2 → later2 = later)
    (hlater : ∀ m ∈ later, (d m).isSome = true) :
    Good all L M (d.set f (refHead L M (f :: later))) := by
  refine ⟨?_, ?_, ?_⟩
  · intro p g later2 v hp hv
    by_cases hg : g = f
    · subst hg
      rw [set_self] at hv
      rw [huniq p later2 hp]
      exact (Option.some.inj hv).symm
    · have : (d.set f (refHead L M (f :: later))) g = d g := by simp [Dists.set, hg]
      rw [this] at hv
      exact hG.1 p g later2 v hp hv
  · intro p g later2 hp hsome hstep m hm
    rcases (set_isSome_iff d f g _).mp hsome with hg | hg
    · subst hg
      rw [huniq p later2 hp] at hm
      exact Extends.set d g _ m (hlater m hm)
    · exact Extends.set d f _ m (hG.2.1 p g later2 hp hg hstep m hm)
  · intro g hg
    rcases (set_isSome_iff d f g _).mp hg with h | h
    · rw [h]; exact hf
    · exact hG.2.2 g h

theorem if_lt_eq_min (c minD : Int) : (if c < minD then c else minD) = min minD c := by
  split <;> omega

theorem distLoop_spec (all : List node) (L M : Int)
    (call : Nat → node → Dists → Option (Int × Dists)) (i : Nat) (f : node)
    (hcall : ∀ (j : Nat) (m : node) (rest : List node) (d0 : Dists),
      all.drop (i + 1 + j) = m :: rest → Good all L M d0 →
      (j = 0 → (d0 m).isSome = true) →
      ∃ d1, call (i + j) m d0 = some (refHead L M (m :: rest), d1) ∧ Good all L M d1
        ∧ Extends d0 d1 ∧ (d1 m).isSome = true) :
    ∀ (ms : List node) (j : Nat) (minD : Int) (d0 : Dists),
      all.drop (i + 1 + j) = ms → Good all L M d0 →
      (j = 0 → ∀ m rest, ms = m :: rest → (d0 m).isSome = true) →
      ∃ d1, distLoop call i j ms (ms.map (synthsToNext M f)) minD d0
          = some ((cands M f ms (refVals L M ms)).foldl min minD, d1)
        ∧ Good all L M d1 ∧ Extends d0 d1 ∧ ∀ m ∈ ms, (d1 m).isSome = true
  | [], j, minD, d0, _, hG, _ =>
    ⟨d0, by simp [distLoop, cands], hG, Extends.refl d0, by simp⟩
  | m :: ms, j, minD, d0, hpos, hG, hc => by
    obtain ⟨d1, hcall1, hG1, hE1, hm1⟩ :=
      hcall j m ms d0 hpos hG (fun hj => hc hj m ms rfl)
    have hpos2 : all.drop (i + 1 + (j + 1)) = ms :=
      drop_succ_of_drop all (i + 1 + j) m ms hpos
    obtain ⟨d2, hloop, hG2, hE2, hm2⟩ :=
      distLoop_spec all L M call i f hcall ms (j + 1)
        (min minD (1 + synthsToNext M f m + refHead L M (m :: ms))) d1 hpos2 hG1
        (fun hj => absurd hj (Nat.succ_ne_zero j))
    refine ⟨d2, ?_, hG2, hE1.trans hE2, ?_⟩
    · simp only [List.map_cons, distLoop, hcall1]
      rw [cands_cons, List.foldl_cons, if_lt_eq_min]
      exact hloop
    · intro x hx
      rcases List.mem_cons.mp hx with h | h
      · rw [h]; exact hE2 m hm1
      · exact hm2 x h

theorem distFor_cached (all : List node) (L M : Int) (fuel i : Nat) (f : node) (d : Dists)
    (v : Int) (h : d f = some v) : distFor all L M (fuel + 1) i f d = some (v, d) := by
  simp [distFor, h]

theorem distFor_base (all : List node) (L M : Int) (fuel i : Nat) (f : node) (d : Dists)
    (hd : d f = none) (hbase : f.«end» ≥ L) :
    distFor all L M (fuel + 1) i f d = some (1, d.set f 1) := by
  simp [distFor, hd, hbase]

theorem distFor_step (all : List node) (L M : Int) (fuel i : Nat) (f : node) (d : Dists)
    (next : node) (rest2 : List node) (hd : d f = none) (hstep : f.«end» < L)
    (hrest : all.drop (i + 1) = next :: rest2) :
    distFor all L M (fuel + 1) i f d =
      match distFor all L M fuel (i + 1) next d with
      | none => none
      | some (v, d1) =>
        match distLoop (distFor all L M fuel) i 0 (next :: rest2)
            ((next :: rest2).map (synthsToNext M f))
            (1 + synthsToNext M f next + v) d1 with
        | none => none
        | some (minDist, d2) => some (minDist, d2.set f minDist) := by
  have h2 : ¬ f.«end» ≥ L := by omega
  simp only [distFor, hd, h2, if_false, hrest, List.map_cons]

end traverse

namespace traverse

theorem synthsToNext_self (M : Int) (f : node) (h : f.start ≤ f.«end») :
    synthsToNext M f f = 0 := by
  have : ¬ f.start - f.«end» > 0 := by omega
  simp [synthsToNext, this]

theorem length_of_drop {α : Type} (l : List α) (p : Nat) (x : α) (rest : List α)
    (h : l.drop p = x :: rest) : rest.length + 1 + p = l.length := by
  have h1 := congrArg List.length h
  simp only [List.length_drop, List.length_cons] at h1
  omega

theorem mem_of_drop {α : Type} (l : List α) (p : Nat) (x : α) (rest : List α)
    (h : l.drop p = x :: rest) : x ∈ l :=
  List.mem_of_mem_drop (by rw [h]; exact List.mem_cons_self _ _)

/-- What a call `distFor(i, f)` does when `f` stands at position `i` or at
position `i + 1` of `all`: it returns the reference value of `f`, keeps the
invariant of the map, and leaves `f` with a value. The bound `μ` on the
recursion depth is `2 * (number of nodes after f) + 2` in the first case and
one more in the second. -/
theorem distFor_spec (all : List node) (L M : Int)
    (hle : ∀ n ∈ all, n.start ≤ n.«end»)
    (hlast : ∀ p f, all.drop p = [f] → f.«end» ≥ L)
    (huniq : ∀ p q f l1 l2, all.drop p = f :: l1 → all.drop q = f :: l2 →
      f.«end» < L → l1 = l2) :
    ∀ (μ fuel i : Nat) (f : node) (later : List node) (d : Dists),
      μ < fuel → Good all L M d →
      ((all.drop i = f :: later ∧ 2 * later.length + 2 ≤ μ)
        ∨ (all.drop (i + 1) = f :: later ∧ 2 * later.length + 3 ≤ μ)) →
      ∃ d1, distFor all L M fuel i f d = some (refHead L M (f :: later), d1)
        ∧ Good all L M d1 ∧ Extends d d1 ∧ (d1 f).isSome = true := by
  intro μ
  induction μ with
  | zero =>
    intro fuel i f later d _ _ h
    rcases h with h | h <;> omega
  | succ μ ih =>
    intro fuel i f later d hfuel hG hpos
    obtain ⟨fuel1, rfl⟩ : ∃ k, fuel = k + 1 := ⟨fuel - 1, by omega⟩
    have hfuel1 : μ < fuel1 := by omega
    obtain ⟨p, hp⟩ : ∃ p, all.drop p = f :: later := by
      rcases hpos with h | h
      · exact ⟨_, h.1⟩
      · exact ⟨_, h.1⟩
    have hfall : f ∈ all := mem_of_drop all p f later hp
    cases hd : d f with
    | some v =>
      have hv := hG.1 p f later v hp hd
      refine ⟨d, ?_, hG, Extends.refl d, by simp [hd]⟩
      rw [distFor_cached all L M fuel1 i f d v hd, hv]
    | none =>
      by_cases hbase : f.«end» ≥ L
      · refine ⟨d.set f 1, ?_, hG.set_base f hfall hbase, Extends.set d f 1, by simp [set_self]⟩
        rw [distFor_base all L M fuel1 i f d hd hbase, refHead_base L M f later hbase]
      · have hstep : f.«end» < L := by omega
        cases later with
        | nil => exact absurd (hlast p f hp) hbase
        | cons next later2 =>
          have hu : ∀ q l2, all.drop q = f :: l2 → l2 = next :: later2 :=
            fun q l2 hq => huniq q p f l2 (next :: later2) hq hp hstep
          have hrefstep := refHead_step L M f (next :: later2) hstep
          rw [cands_cons] at hrefstep
          rcases hpos with ⟨hA, hμ⟩ | ⟨hB, hμ⟩
          · -- `f` stands at position `i`
            have hrest : all.drop (i + 1) = next :: later2 :=
              drop_succ_of_drop all i f _ hA
            have hlenA := length_of_drop all (i + 1) next later2 hrest
            simp only [List.length_cons] at hμ
            obtain ⟨d1, hinit, hG1, hE1, hn1⟩ :=
              ih fuel1 (i + 1) next later2 d hfuel1 hG (Or.inl ⟨hrest, by omega⟩)
            have hcall : ∀ (j : Nat) (m : node) (rest : List node) (d0 : Dists),
                all.drop (i + 1 + j) = m :: rest → Good all L M d0 →
                (j = 0 → (d0 m).isSome = true) →
                ∃ d2, distFor all L M fuel1 (i + j) m d0 = some (refHead L M (m :: rest), d2)
                  ∧ Good all L M d2 ∧ Extends d0 d2 ∧ (d2 m).isSome = true := by
              intro j m rest d0 hpos0 hG0 _
              have hlen0 := length_of_drop all (i + 1 + j) m rest hpos0
              refine ih fuel1 (i + j) m rest d0 hfuel1 hG0 (Or.inr ⟨?_, by omega⟩)
              rw [show i + j + 1 = i + 1 + j by omega]; exact hpos0
            obtain ⟨d2, hloop, hG2, hE2, hm2⟩ :=
              distLoop_spec all L M (distFor all L M fuel1) i f hcall (next :: later2) 0
                (1 + synthsToNext M f next + refHead L M (next :: later2)) d1
                (by simpa using hrest) hG1
                (fun _ m rest e => by cases e; exact hn1)
            have hval : (cands M f (next :: later2) (refVals L M (next :: later2))).foldl min
                (1 + synthsToNext M f next + refHead L M (next :: later2))
                  = refHead L M (f :: next :: later2) := by
              rw [hrefstep, cands_cons, List.foldl_cons, min_self]
              rfl
            refine ⟨d2.set f (refHead L M (f :: next :: later2)), ?_,
              hG2.set_step f (next :: later2) hfall hu hm2,
              (hE1.trans hE2).trans (Extends.set d2 f _), by simp [set_self]⟩
            rw [distFor_step all L M fuel1 i f d next later2 hd hstep hrest, hinit]
            simp only [hloop, hval]
          · -- `f` stands at position `i + 1`
            have hlenB := length_of_drop all (i + 1) f (next :: later2) hB
            simp only [List.length_cons] at hμ hlenB
            obtain ⟨d1, hinit, hG1, hE1, hf1⟩ :=
              ih fuel1 (i + 1) f (next :: later2) d hfuel1 hG
                (Or.inl ⟨hB, by simp only [List.length_cons]; omega⟩)
            obtain ⟨fuel2, hfuel2⟩ : ∃ k, fuel1 = k + 1 := ⟨fuel1 - 1, by omega⟩
            have hcall : ∀ (j : Nat) (m : node) (rest : List node) (d0 : Dists),
                all.drop (i + 1 + j) = m :: rest → Good all L M d0 →
                (j = 0 → (d0 m).isSome = true) →
                ∃ d2, distFor all L M fuel1 (i + j) m d0 = some (refHead L M (m :: rest), d2)
                  ∧ Good all L M d2 ∧ Extends d0 d2 ∧ (d2 m).isSome = true := by
              intro j m rest d0 hpos0 hG0 hc
              cases j with
              | zero =>
                have hsome := hc rfl
                obtain ⟨w, hw⟩ := Option.isSome_iff_exists.mp hsome
                have hwv := hG0.1 (i + 1 + 0) m rest w hpos0 hw
                refine ⟨d0, ?_, hG0, Extends.refl d0, hsome⟩
                rw [hfuel2]
                exact (distFor_cached all L M fuel2 i m d0 w hw).trans (by rw [hwv])
              | succ j =>
                have hlen0 := length_of_drop all (i + 1 + (j + 1)) m rest hpos0
                refine ih fuel1 (i + (j + 1)) m rest d0 hfuel1 hG0 (Or.inr ⟨?_, by omega⟩)
                rw [show i + (j + 1) + 1 = i + 1 + (j + 1) by omega]; exact hpos0
            obtain ⟨d2, hloop, hG2, hE2, hm2⟩ :=
              distLoop_spec all L M (distFor all L M fuel1) i f hcall (f :: next :: later2) 0
                (1 + synthsToNext M f f + refHead L M (f :: next :: later2)) d1
                (by simpa using hB) hG1
                (fun _ m rest e => by cases e; exact hf1)
            have hself := synthsToNext_self M f (hle f hfall)
            have hval : (cands M f (f :: next :: later2)
                  (refVals L M (f :: next :: later2))).foldl min
                (1 + synthsToNext M f f + refHead L M (f :: next :: later2))
                  = refHead L M (f :: next :: later2) := by
              rw [cands_cons, List.foldl_cons, min_self, cands_cons, List.foldl_cons,
                foldl_min_assoc, hself]
              have e : refHead L M (f :: next :: later2)
                  = List.foldl min
                      (1 + synthsToNext M f next + refHead L M (next :: later2))
                      (cands M f later2 (refVals L M later2)) := hrefstep
              rw [← e]
              omega
            refine ⟨d2.set f (refHead L M (f :: next :: later2)), ?_,
              hG2.set_step f (next :: later2) hfall hu
                (fun m hm => hm2 m (List.mem_cons_of_mem _ hm)),
              (hE1.trans hE2).trans (Extends.set d2 f _), by simp [set_self]⟩
            rw [distFor_step all L M fuel1 i f d f (next :: later2) hd hstep hB, hinit]
            simp only [hloop, hval]

end traverse

namespace traverse

theorem nodeLess_sortSlice : SortsBy nodeLess (sortSlice nodeLess) := by
  refine sortSlice_sortsBy nodeLess ?_ ?_
  · intro a b
    simp only [nodeLess, decide_eq_false_iff_not]
    omega
  · intro a b c hab hbc
    simp only [nodeLess, decide_eq_false_iff_not] at *
    omega

theorem sink_base (L : Int) : (sink L).«end» ≥ L := by
  simp [sink]

theorem last_of_drop {α : Type} (l : List α) (s f : α) (p : Nat)
    (h : (l ++ [s]).drop p = [f]) : f = s := by
  have h1 : (l ++ [s]).take p ++ [f] = l ++ [s] := by
    rw [← h]; exact List.take_append_drop p _
  exact List.singleton_inj.mp (List.append_inj' h1 rfl).2

theorem tail_eq_of_count_le_one (l : List node) (f : node) (hc : l.count f ≤ 1) :
    ∀ (p q : Nat) (l1 l2 : List node), p < q → l.drop p = f :: l1 → l.drop q = f :: l2 →
      False := by
  intro p q l1 l2 hpq hp hq
  have h1 : l.drop (p + 1) = l1 := drop_succ_of_drop l p f l1 hp
  have h2 : l.drop q = l1.drop (q - (p + 1)) := by
    rw [← h1, List.drop_drop]
    congr 1
    omega
  have hf : f ∈ l1 := by
    apply List.mem_of_mem_drop (n := q - (p + 1))
    rw [← h2, hq]
    exact List.mem_cons_self _ _
  have h3 : (f :: l1).count f ≤ l.count f := by
    rw [← hp]
    exact (List.drop_sublist p l).count_le f
  have h4 : 0 < l1.count f := List.count_pos_iff.mpr hf
  rw [List.count_cons_self] at h3
  omega

theorem uniq_of_count_le_one (l : List node) (f : node) (hc : l.count f ≤ 1)
    (p q : Nat) (l1 l2 : List node) (hp : l.drop p = f :: l1) (hq : l.drop q = f :: l2) :
    l1 = l2 := by
  rcases Nat.lt_trichotomy p q with h | h | h
  · exact (tail_eq_of_count_le_one l f hc p q l1 l2 h hp hq).elim
  · subst h
    rw [hp] at hq
    exact (List.cons.inj hq).2
  · exact (tail_eq_of_count_le_one l f hc q p l2 l1 h hq hp).elim

theorem distanceToEnd_eq (srt : List node → List node) (fuel : Nat) (nodes : List node)
    (seqL maxSynth : Int) (first : node) (later : List node)
    (h : srt nodes ++ [sink (2 * seqL)] = first :: later) :
    distanceToEnd srt fuel nodes seqL maxSynth =
      match distFor (first :: later) (2 * seqL) maxSynth fuel 0 first (fun _ => none) with
      | none => none
      | some (_, dists) => some (dists.delete (sink (2 * seqL))) := by
  simp only [distanceToEnd, h]

theorem good_empty (all : List node) (L M : Int) : Good all L M (fun _ => none) := by
  refine ⟨?_, ?_, ?_⟩
  · intro p f later v _ h; simp at h
  · intro p f later _ h; simp at h
  · intro g h; simp at h

/-- With fuel `2 * len(nodes) + 3` or more, `distFor(0, nodes[0])` returns
and leaves a map that satisfies the invariant. -/
theorem distanceToEnd_good (srt : List node → List node) (hsrt : SortsBy nodeLess srt)
    (nodes : List node) (seqL maxSynth : Int) (hdistinct : nodes.Nodup)
    (hle : ∀ n ∈ nodes, n.start ≤ n.«end») (fuel : Nat)
    (hfuel : 2 * nodes.length + 3 ≤ fuel) :
    ∃ d, distanceToEnd srt fuel nodes seqL maxSynth = some (d.delete (sink (2 * seqL)))
      ∧ Good (srt nodes ++ [sink (2 * seqL)]) (2 * seqL) maxSynth d := by
  have hperm := (hsrt nodes).1
  have hle2 : ∀ n ∈ srt nodes ++ [sink (2 * seqL)], n.start ≤ n.«end» := by
    intro n hn
    rcases List.mem_append.mp hn with h | h
    · exact hle n (hperm.subset h)
    · simp only [List.mem_singleton] at h
      rw [h]; simp [sink]
  have hlast : ∀ p f, (srt nodes ++ [sink (2 * seqL)]).drop p = [f] → f.«end» ≥ 2 * seqL := by
    intro p f h
    rw [last_of_drop _ _ _ p h]
    exact sink_base _
  have huniq : ∀ p q f l1 l2, (srt nodes ++ [sink (2 * seqL)]).drop p = f :: l1 →
      (srt nodes ++ [sink (2 * seqL)]).drop q = f :: l2 → f.«end» < 2 * seqL → l1 = l2 := by
    intro p q f l1 l2 hp hq hstep
    have hne : ¬ sink (2 * seqL) = f := by
      intro e
      have := sink_base (2 * seqL)
      rw [e] at this
      omega
    have hc : (srt nodes ++ [sink (2 * seqL)]).count f ≤ 1 := by
      have h1 : (srt nodes).count f ≤ 1 :=
        List.nodup_iff_count_le_one.mp (hperm.nodup_iff.mpr hdistinct) f
      rw [List.count_append, List.count_singleton]
      simp only [beq_iff_eq, hne, if_false]
      omega
    exact uniq_of_count_le_one _ f hc p q l1 l2 hp hq
  obtain ⟨first, later, hall⟩ : ∃ first later,
      srt nodes ++ [sink (2 * seqL)] = first :: later := by
    cases h : srt nodes ++ [sink (2 * seqL)] with
    | nil => simp at h
    | cons a l => exact ⟨a, l, rfl⟩
  have hlen : later.length = nodes.length := by
    have h1 := congrArg List.length hall
    simp only [List.length_append, List.length_cons, List.length_nil] at h1
    rw [hperm.length_eq] at h1
    omega
  obtain ⟨d1, hrun, hG, _, _⟩ :=
    distFor_spec (srt nodes ++ [sink (2 * seqL)]) (2 * seqL) maxSynth hle2 hlast huniq
      (2 * later.length + 2) fuel 0 first later (fun _ => none) (by omega)
      (good_empty _ _ _) (Or.inl ⟨by rw [hall]; rfl, le_refl _⟩)
  refine ⟨d1, ?_, hG⟩
  rw [distanceToEnd_eq srt fuel nodes seqL maxSynth first later hall, ← hall, hrun]

end traverse

namespace traverse

theorem drop_of_getElem? {α : Type} : ∀ (l : List α) (i : Nat) (x : α),
    l[i]? = some x → l.drop i = x :: l.drop (i + 1)
  | [], i, x, h => by simp at h
  | y :: ys, 0, x, h => by
    simp only [List.getElem?_cons_zero, Option.some.injEq] at h
    simp [h]
  | y :: ys, i + 1, x, h => by
    simp only [List.getElem?_cons_succ] at h
    simpa using drop_of_getElem? ys i x h

theorem delete_eq_some (d : Dists) (s f : node) (v : Int) :
    (d.delete s) f = some v ↔ f ≠ s ∧ d f = some v := by
  unfold Dists.delete
  by_cases h : f = s
  · simp [h]
  · simp [h]

/-- Under the invariant, a node standing after a node that has a value and
ends before `lastBP` carries its reference value: 1 for the sink, the stored
value otherwise. -/
theorem value_of_later (all : List node) (L M : Int) (d : Dists) (hG : Good all L M d)
    (i : Nat) (f : node) (hpos : all.drop i = f :: all.drop (i + 1))
    (hsome : (d f).isSome = true) (hstep : f.«end» < L)
    (q : Nat) (m : node) (rest : List node) (hq : (all.drop (i + 1)).drop q = m :: rest) :
    (m = sink L ∧ refHead L M (m :: rest) = 1)
      ∨ (m ≠ sink L ∧ (d.delete (sink L)) m = some (refHead L M (m :: rest))) := by
  by_cases hm : m = sink L
  · left
    refine ⟨hm, refHead_base L M m rest ?_⟩
    rw [hm]; exact sink_base L
  · right
    refine ⟨hm, (delete_eq_some d (sink L) m _).mpr ⟨hm, ?_⟩⟩
    have hmem : m ∈ all.drop (i + 1) := (mem_iff_drop m _).mpr ⟨q, rest, hq⟩
    have hms := hG.2.1 i f (all.drop (i + 1)) hpos hsome hstep m hmem
    obtain ⟨w, hw⟩ := Option.isSome_iff_exists.mp hms
    have hq2 : all.drop (i + 1 + q) = m :: rest := by rw [← List.drop_drop]; exact hq
    rw [hw, hG.1 (i + 1 + q) m rest w hq2 hw]

end traverse

/-! ## Claims about `distanceToEnd` -/

namespace traverse

/-- C6 (the code departs from the claim): when the node with the least start
ends at or after `2 * seqL`, `distFor(0, nodes[0])` stores 1 for it and
returns at once, so no other node gets an entry. For the nodes `(0, 200)` and
`(10, 250)` with `seqL = 100` the map holds `(0, 200) ↦ 1` and nothing for
`(10, 250)`, whatever the recursion depth allowed. -/
theorem distanceToEnd_skips_nodes (fuel : Nat) :
    ∃ dists, distanceToEnd (sortSlice nodeLess) (fuel + 1) [⟨0, 200⟩, ⟨10, 250⟩] 100 500
        = some dists
      ∧ dists ⟨0, 200⟩ = some 1 ∧ dists ⟨10, 250⟩ = none :=
  ⟨_, rfl, by decide, by decide⟩

/-- C7: for nodes with pairwise distinct `(start, end)` and `start ≤ end`,
`seqL > 0` and `maxSynth > 0`, and recursion depth `2 * len(nodes) + 3` or
more, `distanceToEnd` returns a map, and every entry `f ↦ v` of it belongs to
a node `f` at some position `i` of the sorted list and satisfies the
recurrence: `v = 1` if `f.end ≥ 2 * seqL`; otherwise `v` is the minimum, over
the nodes `m` after position `i` in the sorted list extended by the sink, of
`1 + s(f, m) + v(m)`, where `v(m)` is 1 for the sink and the entry of `m`
otherwise, and `s(f, m) = ⌈(m.start - f.end) / maxSynth⌉` if
`m.start - f.end > 0` and 0 otherwise. -/
theorem distanceToEnd_recurrence (srt : List node → List node)
    (hsrt : SortsBy nodeLess srt) (nodes : List node) (seqL maxSynth : Int)
    (hdistinct : nodes.Nodup) (hle : ∀ n ∈ nodes, n.start ≤ n.«end»)
    (_hseqL : 0 < seqL) (_hmaxSynth : 0 < maxSynth) (fuel : Nat)
    (hfuel : 2 * nodes.length + 3 ≤ fuel) :
    ∃ dists, distanceToEnd srt fuel nodes seqL maxSynth = some dists ∧
      ∀ (f : node) (v : Int), dists f = some v →
        ∃ i, (srt nodes)[i]? = some f
          ∧ (f.«end» ≥ 2 * seqL → v = 1)
          ∧ (f.«end» < 2 * seqL →
              (∀ m ∈ (srt nodes ++ [sink (2 * seqL)]).drop (i + 1), ∃ vm,
                  ((m = sink (2 * seqL) ∧ vm = 1)
                    ∨ (m ≠ sink (2 * seqL) ∧ dists m = some vm))
                  ∧ v ≤ 1 + (if m.start - f.«end» > 0
                      then ⌈((m.start - f.«end» : Int) : ℚ) / (maxSynth : ℚ)⌉ else 0) + vm)
              ∧ (∃ m ∈ (srt nodes ++ [sink (2 * seqL)]).drop (i + 1), ∃ vm,
                  ((m = sink (2 * seqL) ∧ vm = 1)
                    ∨ (m ≠ sink (2 * seqL) ∧ dists m = some vm))
                  ∧ v = 1 + (if m.start - f.«end» > 0
                      then ⌈((m.start - f.«end» : Int) : ℚ) / (maxSynth : ℚ)⌉ else 0) + vm)) := by
  obtain ⟨d, hrun, hG⟩ :=
    distanceToEnd_good srt hsrt nodes seqL maxSynth hdistinct hle fuel hfuel
  refine ⟨d.delete (sink (2 * seqL)), hrun, ?_⟩
  intro f v hfv
  obtain ⟨hfs, hdf⟩ := (delete_eq_some d _ f v).mp hfv
  have hsome : (d f).isSome = true := by simp [hdf]
  have hfall := hG.2.2 f hsome
  have hfsorted : f ∈ srt nodes := by
    rcases List.mem_append.mp hfall with h | h
    · exact h
    · exact absurd (List.mem_singleton.mp h) hfs
  obtain ⟨i, hi⟩ := List.mem_iff_getElem?.mp hfsorted
  have hi2 : (srt nodes ++ [sink (2 * seqL)])[i]? = some f := by
    have hlt : i < (srt nodes).length := by
      by_contra hge
      rw [List.getElem?_eq_none (by omega)] at hi
      exact Option.noConfusion hi
    rw [List.getElem?_append_left hlt]; exact hi
  have hpos := drop_of_getElem? _ i f hi2
  have hv := hG.1 i f _ v hpos hdf
  refine ⟨i, hi, ?_, ?_⟩
  · intro hbase
    rw [hv, refHead_base _ _ f _ hbase]
  · intro hstep
    rw [refHead_step _ _ f _ hstep] at hv
    have hval := value_of_later _ (2 * seqL) maxSynth d hG i f hpos hsome hstep
    constructor
    · intro m hm
      obtain ⟨q, rest, hq⟩ := (mem_iff_drop m _).mp hm
      refine ⟨refHead (2 * seqL) maxSynth (m :: rest), ?_, ?_⟩
      · rcases hval q m rest hq with h | h
        · exact Or.inl h
        · exact Or.inr h
      · have hc : 1 + synthsToNext maxSynth f m + refHead (2 * seqL) maxSynth (m :: rest)
            ∈ cands maxSynth f ((srt nodes ++ [sink (2 * seqL)]).drop (i + 1))
                (refVals (2 * seqL) maxSynth ((srt nodes ++ [sink (2 * seqL)]).drop (i + 1))) :=
          (mem_cands_iff _ _ f _ _).mpr ⟨q, m, rest, hq, rfl⟩
        cases hcs : cands maxSynth f ((srt nodes ++ [sink (2 * seqL)]).drop (i + 1))
            (refVals (2 * seqL) maxSynth ((srt nodes ++ [sink (2 * seqL)]).drop (i + 1))) with
        | nil => rw [hcs] at hc; simp at hc
        | cons c cs =>
          rw [hcs] at hc hv
          rw [hv]
          exact minCand_le c cs _ hc
    · cases hcs : cands maxSynth f ((srt nodes ++ [sink (2 * seqL)]).drop (i + 1))
          (refVals (2 * seqL) maxSynth ((srt nodes ++ [sink (2 * seqL)]).drop (i + 1))) with
      | nil =>
        exfalso
        cases hd : (srt nodes ++ [sink (2 * seqL)]).drop (i + 1) with
        | nil =>
          rw [hd] at hpos
          exact absurd (last_of_drop _ _ _ i hpos) hfs
        | cons a l =>
          rw [hd, cands_cons] at hcs
          exact List.noConfusion hcs
      | cons c cs =>
        have hmem := minCand_mem c cs
        rw [← hcs] at hmem
        obtain ⟨q, m, rest, hq, hc⟩ := (mem_cands_iff _ _ f _ _).mp hmem
        refine ⟨m, (mem_iff_drop m _).mpr ⟨q, rest, hq⟩,
          refHead (2 * seqL) maxSynth (m :: rest), ?_, ?_⟩
        · rcases hval q m rest hq with h | h
          · exact Or.inl h
          · exact Or.inr h
        · rw [hv]; exact hc

theorem distanceToEnd_recurrence_witness :
    ∃ dists, distanceToEnd (sortSlice nodeLess) 11
        [⟨700, 800⟩, ⟨0, 100⟩, ⟨150, 250⟩, ⟨10, 50⟩] 100 500 = some dists ∧
      ∀ (f : node) (v : Int), dists f = some v →
        ∃ i, (sortSlice nodeLess [⟨700, 800⟩, ⟨0, 100⟩, ⟨150, 250⟩, ⟨10, 50⟩])[i]? = some f
          ∧ (f.«end» ≥ 2 * 100 → v = 1)
          ∧ (f.«end» < 2 * 100 →
              (∀ m ∈ (sortSlice nodeLess [⟨700, 800⟩, ⟨0, 100⟩, ⟨150, 250⟩, ⟨10, 50⟩]
                    ++ [sink (2 * 100)]).drop (i + 1), ∃ vm,
                  ((m = sink (2 * 100) ∧ vm = 1)
                    ∨ (m ≠ sink (2 * 100) ∧ dists m = some vm))
                  ∧ v ≤ 1 + (if m.start - f.«end» > 0
                      then ⌈((m.start - f.«end» : Int) : ℚ) / ((500 : Int) : ℚ)⌉ else 0) + vm)
              ∧ (∃ m ∈ (sortSlice nodeLess [⟨700, 800⟩, ⟨0, 100⟩, ⟨150, 250⟩, ⟨10, 50⟩]
                    ++ [sink (2 * 100)]).drop (i + 1), ∃ vm,
                  ((m = sink (2 * 100) ∧ vm = 1)
                    ∨ (m ≠ sink (2 * 100) ∧ dists m = some vm))
                  ∧ v = 1 + (if m.start - f.«end» > 0
                      then ⌈((m.start - f.«end» : Int) : ℚ) / ((500 : Int) : ℚ)⌉ else 0) + vm)) :=
  distanceToEnd_recurrence (sortSlice nodeLess) nodeLess_sortSlice
    [⟨700, 800⟩, ⟨0, 100⟩, ⟨150, 250⟩, ⟨10, 50⟩] 100 500
    (by decide) (by decide) (by decide) (by decide) 11 (by decide)

end traverse

/-! ## Facts about `synthDist` -/

namespace defrag

theorem synthDist_of_le (a b : node) (c : config.Config) (h : a.distTo b ≤ 5) :
    a.synthDist c b = 0 := by
  simp [node.synthDist, h]

theorem synthDist_of_gt (a b : node) (c : config.Config) (h : 5 < a.distTo b) :
    a.synthDist c b = ⌈((a.distTo b : Int) : ℚ) / (c.Synthesis.MaxLength : ℚ)⌉ := by
  have h1 : ¬ a.distTo b ≤ 5 := by omega
  have h2 : (1 : ℚ) ≤ ((a.distTo b : Int) : ℚ) := by
    have : (1 : Int) ≤ a.distTo b := by omega
    exact_mod_cast this
  simp [node.synthDist, h1, max_eq_right h2]

/-- The ceiling of `d / m` for a positive `m`, in integer terms: it is the
least integer `k` with `d ≤ k * m`. -/
theorem ceil_div_spec (d m : Int) (hm : 0 < m) :
    d ≤ ⌈(d : ℚ) / (m : ℚ)⌉ * m
      ∧ ∀ k : Int, d ≤ k * m → ⌈(d : ℚ) / (m : ℚ)⌉ ≤ k := by
  have hmq : (0 : ℚ) < (m : ℚ) := by exact_mod_cast hm
  constructor
  · have h1 : (d : ℚ) / (m : ℚ) ≤ ((⌈(d : ℚ) / (m : ℚ)⌉ : Int) : ℚ) := Int.le_ceil _
    have h2 : (d : ℚ) ≤ ((⌈(d : ℚ) / (m : ℚ)⌉ : Int) : ℚ) * (m : ℚ) :=
      (div_le_iff₀ hmq).mp h1
    exact_mod_cast h2
  · intro k hk
    apply Int.ceil_le.mpr
    apply (div_le_iff₀ hmq).mpr
    exact_mod_cast hk

theorem ceil_div_pos (d m : Int) (hd : 0 < d) (hm : 0 < m) :
    1 ≤ ⌈(d : ℚ) / (m : ℚ)⌉ := by
  apply Int.one_le_ceil_iff.mpr
  apply div_pos
  · exact_mod_cast hd
  · exact_mod_cast hm

theorem synthDist_nonneg (a b : node) (c : config.Config)
    (hM : 0 < c.Synthesis.MaxLength) : 0 ≤ a.synthDist c b := by
  by_cases h : a.distTo b ≤ 5
  · rw [synthDist_of_le a b c h]
  · rw [synthDist_of_gt a b c (by omega)]
    have := ceil_div_pos (a.distTo b) c.Synthesis.MaxLength (by omega) hM
    omega

end defrag

/-! ## Claims about `synthDist`, `costTo` and `add` -/

namespace defrag

/-- C11: for `Synthesis.MaxLength > 0`, `a.synthDist(b)` is 0 when
`distTo(a,b) = b.start - a.end ≤ 5`, and otherwise it is the ceiling of
`distTo(a,b) / MaxLength`, which is the least integer `k ≥ 1` with
`k * MaxLength ≥ distTo(a,b)`. -/
theorem synthDist_spec (a b : node) (c : config.Config)
    (hM : 0 < c.Synthesis.MaxLength) :
    a.distTo b = b.start - a.«end»
      ∧ (a.distTo b ≤ 5 → a.synthDist c b = 0)
      ∧ (5 < a.distTo b →
          a.synthDist c b = ⌈((a.distTo b : Int) : ℚ) / (c.Synthesis.MaxLength : ℚ)⌉
          ∧ 1 ≤ a.synthDist c b
          ∧ a.distTo b ≤ a.synthDist c b * c.Synthesis.MaxLength
          ∧ ∀ k : Int, 1 ≤ k → a.distTo b ≤ k * c.Synthesis.MaxLength →
              a.synthDist c b ≤ k) := by
  refine ⟨rfl, synthDist_of_le a b c, ?_⟩
  intro h
  have hs := synthDist_of_gt a b c h
  have hspec := ceil_div_spec (a.distTo b) c.Synthesis.MaxLength hM
  have hpos := ceil_div_pos (a.distTo b) c.Synthesis.MaxLength (by omega) hM
  rw [← hs] at hspec hpos
  exact ⟨hs, hpos, hspec.1, fun k _ hk => hspec.2 k hk⟩

theorem synthDist_spec_witness :
    node.distTo ⟨"p1", "ACGT", "0p1", 0, 100, 0⟩ ⟨"p2", "ACGT", "700p2", 700, 800, 0⟩
        = 700 - 100
      ∧ (node.distTo ⟨"p1", "ACGT", "0p1", 0, 100, 0⟩ ⟨"p2", "ACGT", "700p2", 700, 800, 0⟩ ≤ 5 →
          node.synthDist ⟨"p1", "ACGT", "0p1", 0, 100, 0⟩ (config.sample 20 5)
            ⟨"p2", "ACGT", "700p2", 700, 800, 0⟩ = 0)
      ∧ (5 < node.distTo ⟨"p1", "ACGT", "0p1", 0, 100, 0⟩
            ⟨"p2", "ACGT", "700p2", 700, 800, 0⟩ →
          node.synthDist ⟨"p1", "ACGT", "0p1", 0, 100, 0⟩ (config.sample 20 5)
              ⟨"p2", "ACGT", "700p2", 700, 800, 0⟩
            = ⌈((node.distTo ⟨"p1", "ACGT", "0p1", 0, 100, 0⟩
                  ⟨"p2", "ACGT", "700p2", 700, 800, 0⟩ : Int) : ℚ)
                / ((config.sample 20 5).Synthesis.MaxLength : ℚ)⌉
          ∧ 1 ≤ node.synthDist ⟨"p1", "ACGT", "0p1", 0, 100, 0⟩ (config.sample 20 5)
              ⟨"p2", "ACGT", "700p2", 700, 800, 0⟩
          ∧ node.distTo ⟨"p1", "ACGT", "0p1", 0, 100, 0⟩ ⟨"p2", "ACGT", "700p2", 700, 800, 0⟩
              ≤ node.synthDist ⟨"p1", "ACGT", "0p1", 0, 100, 0⟩ (config.sample 20 5)
                  ⟨"p2", "ACGT", "700p2", 700, 800, 0⟩
                * (config.sample 20 5).Synthesis.MaxLength
          ∧ ∀ k : Int, 1 ≤ k →
              node.distTo ⟨"p1", "ACGT", "0p1", 0, 100, 0⟩
                  ⟨"p2", "ACGT", "700p2", 700, 800, 0⟩
                ≤ k * (config.sample 20 5).Synthesis.MaxLength →
              node.synthDist ⟨"p1", "ACGT", "0p1", 0, 100, 0⟩ (config.sample 20 5)
                  ⟨"p2", "ACGT", "700p2", 700, 800, 0⟩ ≤ k) :=
  synthDist_spec ⟨"p1", "ACGT", "0p1", 0, 100, 0⟩ ⟨"p2", "ACGT", "700p2", 700, 800, 0⟩
    (config.sample 20 5) (by decide)

/-- C12: the bridging part of the junction cost, `a.costTo(b)` minus the
acquisition cost that `costTo` adds to it (`a.cost`), with
`d = b.start - a.end`: it is `40 * PCR.BPCost` in the PCR regime `d ≤ 5` when
`d < -MinHomology` (and `d < -MinHomology` alone puts `d` in the PCR regime
whenever `MinHomology ≥ -5`, so for every non-negative `MinHomology`), it is
`(40 + MinHomology) * PCR.BPCost` when `-MinHomology ≤ d ≤ 5`, and it is
`SynthCost(MinHomology + d)` when `d > 5`; a 2bp gap with `MinHomology = 20`
costs `(40 + 20) * BPCost`. -/
theorem costTo_bridging (a b : node) (c : config.Config) :
    a.distTo b = b.start - a.«end»
      ∧ (a.distTo b ≤ 5 → a.distTo b < -c.Fragments.MinHomology →
          a.costTo c b - a.cost = 40 * c.PCR.BPCost)
      ∧ (-5 ≤ c.Fragments.MinHomology → a.distTo b < -c.Fragments.MinHomology →
          a.costTo c b - a.cost = 40 * c.PCR.BPCost)
      ∧ (-c.Fragments.MinHomology ≤ a.distTo b → a.distTo b ≤ 5 →
          a.costTo c b - a.cost = (40 + (c.Fragments.MinHomology : ℚ)) * c.PCR.BPCost)
      ∧ (5 < a.distTo b →
          a.costTo c b - a.cost = c.SynthCost (c.Fragments.MinHomology + a.distTo b))
      ∧ (c.Fragments.MinHomology = 20 → a.distTo b = 2 →
          a.costTo c b - a.cost = (40 + 20) * c.PCR.BPCost) := by
  have hpcr1 : a.distTo b ≤ 5 → a.distTo b < -c.Fragments.MinHomology →
      a.costTo c b - a.cost = 40 * c.PCR.BPCost := by
    intro h1 h2
    simp [node.costTo, h1, h2]
  have hpcr2 : -c.Fragments.MinHomology ≤ a.distTo b → a.distTo b ≤ 5 →
      a.costTo c b - a.cost = (40 + (c.Fragments.MinHomology : ℚ)) * c.PCR.BPCost := by
    intro h1 h2
    have h3 : ¬ a.distTo b < -c.Fragments.MinHomology := by omega
    simp [node.costTo, h2, h3]
  refine ⟨rfl, hpcr1, ?_, hpcr2, ?_, ?_⟩
  · intro h1 h2
    exact hpcr1 (by omega) h2
  · intro h1
    have h2 : ¬ a.distTo b ≤ 5 := by omega
    simp [node.costTo, h2]
  · intro h1 h2
    have := hpcr2 (by omega) (by omega)
    rw [this, h1]
    norm_num

theorem costTo_bridging_witness :
    node.costTo ⟨"p1", "ACGT", "0p1", 0, 100, 7⟩ (config.sample 20 5)
        ⟨"p2", "ACGT", "102p2", 102, 300, 30⟩ - 7
      = (40 + 20) * (config.sample 20 5).PCR.BPCost :=
  (costTo_bridging ⟨"p1", "ACGT", "0p1", 0, 100, 7⟩ ⟨"p2", "ACGT", "102p2", 102, 300, 30⟩
    (config.sample 20 5)).2.2.2.2.2 rfl (by decide)

end defrag

namespace assemble

/-- C13: for a non-empty assembly `a` whose last node is `last`, `add(n)`
returns, and it reports `complete = true` exactly when `n.uniqueID` equals
`last.uniqueID`; in that case `created = true` and the returned assembly is
`a` itself, with nodes, cost and synths unchanged. -/
theorem add_complete_iff (a : assembly) (c : config.Config) (n last : node)
    (hlast : a.nodes.getLast? = some last) :
    ∃ r created complete, a.add c n = some (r, created, complete)
      ∧ (complete = true ↔ n.uniqueID = last.uniqueID)
      ∧ (complete = true → created = true ∧ r = a
          ∧ r.nodes = a.nodes ∧ r.cost = a.cost ∧ r.synths = a.synths) := by
  obtain ⟨first, rest, h0⟩ : ∃ first rest, a.nodes = first :: rest := by
    cases h : a.nodes with
    | nil => rw [h] at hlast; simp at hlast
    | cons first rest => exact ⟨first, rest, rfl⟩
  rcases add_cases a c n first last rest h0 hlast with h | h | h
  · exact ⟨_, _, _, h.2, by simp [h.1], fun _ => ⟨rfl, rfl, rfl, rfl, rfl⟩⟩
  · exact ⟨_, _, _, h.2.2, by simp [h.1], fun hc => by simp at hc⟩
  · exact ⟨_, _, _, h.2.2, by simp [h.1], fun hc => by simp at hc⟩

theorem add_complete_iff_witness :
    ∃ r created complete,
      assembly.add
          (assembly.mk [⟨"p2", "ACGT", "100p2", 100, 210, 0⟩,
                        ⟨"p3", "ACGT", "200p3", 200, 300, 0⟩] 60 0)
          (config.sample 20 5) ⟨"p3", "ACGT", "200p3", 1200, 1300, 0⟩
        = some (r, created, complete)
      ∧ (complete = true ↔
          (⟨"p3", "ACGT", "200p3", 1200, 1300, 0⟩ : node).uniqueID
            = (⟨"p3", "ACGT", "200p3", 200, 300, 0⟩ : node).uniqueID)
      ∧ (complete = true → created = true
          ∧ r = assembly.mk [⟨"p2", "ACGT", "100p2", 100, 210, 0⟩,
                              ⟨"p3", "ACGT", "200p3", 200, 300, 0⟩] 60 0
          ∧ r.nodes = (assembly.mk [⟨"p2", "ACGT", "100p2", 100, 210, 0⟩,
                              ⟨"p3", "ACGT", "200p3", 200, 300, 0⟩] 60 0).nodes
          ∧ r.cost = (assembly.mk [⟨"p2", "ACGT", "100p2", 100, 210, 0⟩,
                              ⟨"p3", "ACGT", "200p3", 200, 300, 0⟩] 60 0).cost
          ∧ r.synths = (assembly.mk [⟨"p2", "ACGT", "100p2", 100, 210, 0⟩,
                              ⟨"p3", "ACGT", "200p3", 200, 300, 0⟩] 60 0).synths) :=
  add_complete_iff
    (assembly.mk [⟨"p2", "ACGT", "100p2", 100, 210, 0⟩,
                  ⟨"p3", "ACGT", "200p3", 200, 300, 0⟩] 60 0)
    (config.sample 20 5) ⟨"p3", "ACGT", "200p3", 1200, 1300, 0⟩
    ⟨"p3", "ACGT", "200p3", 200, 300, 0⟩ (by decide)

/-- C17 (the code departs from the claim): on an assembly with no nodes the
first statement of `add` indexes `a.nodes[len(a.nodes)-1]`, which is out of
range, so the call fails for every node and never reaches the branch that
would return the one-node assembly. -/
theorem add_empty_fails (c : config.Config) (n : node) (cost : ℚ) (synths : Int) :
    assembly.add { nodes := [], cost := cost, synths := synths } c n = none := by
  simp [assembly.add]

/-- C18 (the code departs from the claim): `add` counts the synthetic pieces
from the pair `(h, n)` and charges the cost from the pair `(n, h)`. With the
head `h = (700, 800)` and the new node `n = (0, 100)`, the distance used for
the count is `0 - 800 = -800` (no piece) and the distance used for the cost
is `700 - 100 = 600` (a synthesis of `20 + 600` bases, cost 620), while
`h.costTo(n)` is 40 and `n.synthDist(h)` is 2. -/
theorem add_mixes_orders :
    assembly.add
        { nodes := [⟨"p2", "ACGT", "700p2", 700, 800, 0⟩], cost := 0, synths := 0 }
        (config.sample 20 5) ⟨"p1", "ACGT", "0p1", 0, 100, 0⟩
      = some ({ nodes := [⟨"p1", "ACGT", "0p1", 0, 100, 0⟩,
                          ⟨"p2", "ACGT", "700p2", 700, 800, 0⟩]
                cost := 620, synths := 0 }, true, false)
      ∧ defrag.node.distTo ⟨"p2", "ACGT", "700p2", 700, 800, 0⟩
          ⟨"p1", "ACGT", "0p1", 0, 100, 0⟩ = -800
      ∧ defrag.node.distTo ⟨"p1", "ACGT", "0p1", 0, 100, 0⟩
          ⟨"p2", "ACGT", "700p2", 700, 800, 0⟩ = 600
      ∧ defrag.node.synthDist ⟨"p2", "ACGT", "700p2", 700, 800, 0⟩ (config.sample 20 5)
          ⟨"p1", "ACGT", "0p1", 0, 100, 0⟩ = 0
      ∧ defrag.node.costTo ⟨"p2", "ACGT", "700p2", 700, 800, 0⟩ (config.sample 20 5)
          ⟨"p1", "ACGT", "0p1", 0, 100, 0⟩ = 40
      ∧ defrag.node.costTo ⟨"p1", "ACGT", "0p1", 0, 100, 0⟩ (config.sample 20 5)
          ⟨"p2", "ACGT", "700p2", 700, 800, 0⟩ = 620
      ∧ defrag.node.synthDist ⟨"p1", "ACGT", "0p1", 0, 100, 0⟩ (config.sample 20 5)
          ⟨"p2", "ACGT", "700p2", 700, 800, 0⟩ = 2 := by
  have hid : ¬ ("0p1" : String) = "700p2" := by decide
  refine ⟨?_, by decide, by decide, by decide, ?_, ?_, ?_⟩
  · norm_num [assembly.add, assembly.len, defrag.node.synthDist, defrag.node.costTo,
      defrag.node.distTo, config.sample, hid]
  · norm_num [defrag.node.costTo, defrag.node.distTo, config.sample]
  · norm_num [defrag.node.costTo, defrag.node.distTo, config.sample]
  · rw [defrag.synthDist_of_gt _ _ _ (by decide)]
    rw [Int.ceil_eq_iff]
    norm_num [defrag.node.distTo, config.sample]

end assemble

namespace traverse

/-- C16, as stated, fails: for a distance of 3 and a maximum length of 500,
`distanceToEnd` counts one synthetic piece for the step and `synthDist`
counts none. -/
theorem synthCount_differs :
    (⟨103, 200⟩ : node).start - (⟨0, 100⟩ : node).«end»
        = defrag.node.distTo ⟨"p1", "ACGT", "0p1", 0, 100, 0⟩
            ⟨"p2", "ACGT", "103p2", 103, 200, 0⟩
      ∧ (config.sample 20 5).Synthesis.MaxLength = 500
      ∧ synthsToNext 500 ⟨0, 100⟩ ⟨103, 200⟩ = 1
      ∧ defrag.node.synthDist ⟨"p1", "ACGT", "0p1", 0, 100, 0⟩ (config.sample 20 5)
          ⟨"p2", "ACGT", "103p2", 103, 200, 0⟩ = 0 := by
  refine ⟨by decide, by decide, ?_, by decide⟩
  have h : (⟨103, 200⟩ : node).start - (⟨0, 100⟩ : node).«end» > 0 := by decide
  simp only [synthsToNext, h, if_true]
  rw [Int.ceil_eq_iff]
  norm_num

/-- C16, amended: for `maxSynth > 0` and nodes at the same distance
`d = m.start - f.end`, the synth count that `distanceToEnd` uses for the step
from `f` to `m` equals `synthDist` when `d ≤ 0` or `d > 5`; for `0 < d ≤ 5`
`distanceToEnd` counts `⌈d / maxSynth⌉ ≥ 1` pieces and `synthDist` counts
none. -/
theorem synthCount_agrees (f m : node) (a b : defrag.node) (c : config.Config)
    (hM : 0 < c.Synthesis.MaxLength)
    (hdist : a.distTo b = m.start - f.«end») :
    ((m.start - f.«end» ≤ 0 ∨ 5 < m.start - f.«end») →
        synthsToNext c.Synthesis.MaxLength f m = a.synthDist c b)
      ∧ (0 < m.start - f.«end» → m.start - f.«end» ≤ 5 →
          synthsToNext c.Synthesis.MaxLength f m
            = ⌈((m.start - f.«end» : Int) : ℚ) / (c.Synthesis.MaxLength : ℚ)⌉
          ∧ 1 ≤ synthsToNext c.Synthesis.MaxLength f m
          ∧ a.synthDist c b = 0) := by
  constructor
  · rintro (h | h)
    · have h1 : ¬ m.start - f.«end» > 0 := by omega
      rw [defrag.synthDist_of_le a b c (by omega)]
      simp [synthsToNext, h1]
    · have h1 : m.start - f.«end» > 0 := by omega
      rw [defrag.synthDist_of_gt a b c (by omega), hdist]
      simp only [synthsToNext, h1, if_true]
  · intro h1 h2
    have h3 : m.start - f.«end» > 0 := h1
    have hs : synthsToNext c.Synthesis.MaxLength f m
        = ⌈((m.start - f.«end» : Int) : ℚ) / (c.Synthesis.MaxLength : ℚ)⌉ := by
      simp only [synthsToNext, h3, if_true]
    refine ⟨hs, ?_, defrag.synthDist_of_le a b c (by omega)⟩
    rw [hs]
    exact defrag.ceil_div_pos _ _ h1 hM

theorem synthCount_agrees_witness :
    (((⟨700, 800⟩ : node).start - (⟨0, 100⟩ : node).«end» ≤ 0
        ∨ 5 < (⟨700, 800⟩ : node).start - (⟨0, 100⟩ : node).«end») →
        synthsToNext (config.sample 20 5).Synthesis.MaxLength ⟨0, 100⟩ ⟨700, 800⟩
          = defrag.node.synthDist ⟨"p1", "ACGT", "0p1", 0, 100, 0⟩ (config.sample 20 5)
              ⟨"p2", "ACGT", "700p2", 700, 800, 0⟩)
      ∧ (0 < (⟨700, 800⟩ : node).start - (⟨0, 100⟩ : node).«end» →
          (⟨700, 800⟩ : node).start - (⟨0, 100⟩ : node).«end» ≤ 5 →
          synthsToNext (config.sample 20 5).Synthesis.MaxLength ⟨0, 100⟩ ⟨700, 800⟩
            = ⌈(((⟨700, 800⟩ : node).start - (⟨0, 100⟩ : node).«end» : Int) : ℚ)
                / ((config.sample 20 5).Synthesis.MaxLength : ℚ)⌉
          ∧ 1 ≤ synthsToNext (config.sample 20 5).Synthesis.MaxLength ⟨0, 100⟩ ⟨700, 800⟩
          ∧ defrag.node.synthDist ⟨"p1", "ACGT", "0p1", 0, 100, 0⟩ (config.sample 20 5)
              ⟨"p2", "ACGT", "700p2", 700, 800, 0⟩ = 0) :=
  synthCount_agrees ⟨0, 100⟩ ⟨700, 800⟩ ⟨"p1", "ACGT", "0p1", 0, 100, 0⟩
    ⟨"p2", "ACGT", "700p2", 700, 800, 0⟩ (config.sample 20 5) (by decide) (by decide)

end traverse

/-! ## Facts about `synthTo` -/

namespace defrag

/-- A slice that is returned has its bounds in range and is as long as they
are apart. -/
theorem slice_length (s : String) (start stop : Int) (r : String)
    (h : slice s start stop = some r) :
    0 ≤ start ∧ start ≤ stop ∧ stop ≤ (s.length : Int)
      ∧ (r.length : Int) = stop - start := by
  unfold slice at h
  split at h
  · rename_i hr
    refine ⟨hr.1, hr.2.1, hr.2.2, ?_⟩
    have hr' := Option.some.inj h
    rw [← hr', String.length_mk, List.length_take, List.length_drop]
    have : s.toList.length = s.length := rfl
    rw [this]
    omega
  · exact Option.noConfusion h

theorem slice_isSome (s : String) (start stop : Int)
    (h : 0 ≤ start ∧ start ≤ stop ∧ stop ≤ (s.length : Int)) :
    ∃ r, slice s start stop = some r := by
  unfold slice
  rw [if_pos h]
  exact ⟨_, rfl⟩

/-- What the loop of `synthTo` returns: the fragments it started with,
followed by one fragment per iteration, numbered from `fragIndex + 1`. -/
theorem synthLoop_spec (n : node) (c : config.Config) (fragL : Int) (seq : String) :
    ∀ (todo fragIndex : Nat) (acc frags : List Fragment),
      synthLoop n c fragL seq todo fragIndex acc = some frags →
      ∃ rest, frags = acc ++ rest ∧ rest.length = todo
        ∧ ∀ k, k < todo → ∃ s,
            slice seq (synthWindow n c fragL (fragIndex + k)).1
                (synthWindow n c fragL (fragIndex + k)).2 = some s
            ∧ rest[k]? = some
                { ID := n.id ++ "-synthetic-" ++ toString (fragIndex + k + 1)
                  Seq := s
                  Entry := ""
                  «Type» := FragType.Synthetic
                  Cost := c.SynthCost (n.seq.length : Int) + n.cost }
  | 0, fragIndex, acc, frags, h => by
    simp only [synthLoop, Option.some.injEq] at h
    exact ⟨[], by simp [h], rfl, fun k hk => absurd hk (Nat.not_lt_zero k)⟩
  | todo + 1, fragIndex, acc, frags, h => by
    simp only [synthLoop] at h
    cases hs : slice seq (synthWindow n c fragL fragIndex).1
        (synthWindow n c fragL fragIndex).2 with
    | none => rw [hs] at h; exact Option.noConfusion h
    | some s0 =>
      rw [hs] at h
      obtain ⟨rest, hfr, hlen, hk⟩ :=
        synthLoop_spec n c fragL seq todo (fragIndex + 1) _ frags h
      refine ⟨({ ID := n.id ++ "-synthetic-" ++ toString (fragIndex + 1)
                 Seq := s0
                 Entry := ""
                 «Type» := FragType.Synthetic
                 Cost := c.SynthCost (n.seq.length : Int) + n.cost } : Fragment) :: rest,
        by rw [hfr]; simp, by simp [hlen], ?_⟩
      intro k hklt
      cases k with
      | zero => exact ⟨s0, hs, by simp⟩
      | succ k =>
        obtain ⟨s, hs1, hs2⟩ := hk k (by omega)
        refine ⟨s, ?_, ?_⟩
        · rw [show fragIndex + (k + 1) = fragIndex + 1 + k by omega]; exact hs1
        · rw [show fragIndex + (k + 1) + 1 = fragIndex + 1 + k + 1 by omega]
          simpa using hs2

theorem synthLoop_isSome (n : node) (c : config.Config) (fragL : Int) (seq : String) :
    ∀ (todo fragIndex : Nat) (acc : List Fragment),
      (∀ k, k < todo →
        0 ≤ (synthWindow n c fragL (fragIndex + k)).1
          ∧ (synthWindow n c fragL (fragIndex + k)).1
              ≤ (synthWindow n c fragL (fragIndex + k)).2
          ∧ (synthWindow n c fragL (fragIndex + k)).2 ≤ (seq.length : Int)) →
      ∃ frags, synthLoop n c fragL seq todo fragIndex acc = some frags
  | 0, fragIndex, acc, _ => ⟨acc, rfl⟩
  | todo + 1, fragIndex, acc, h => by
    obtain ⟨s, hs⟩ := slice_isSome seq _ _ (h 0 (by omega))
    simp only [Nat.add_zero] at hs
    simp only [synthLoop, hs]
    apply synthLoop_isSome n c fragL seq todo (fragIndex + 1)
    intro k hk
    have := h (k + 1) (by omega)
    rw [show fragIndex + (k + 1) = fragIndex + 1 + k by omega] at this
    exact this

/-- The call `synthTo` returns when every slice is in range, and then the
list it returns has one fragment per iteration, the `k`-th cut at window
`k`. -/
theorem synthTo_spec (n next : node) (c : config.Config) (seq : String)
    (hrange : ∀ k : Nat, (k : Int) < n.synthDist c next →
      0 ≤ (synthWindow n c (synthFragL n c next) k).1
        ∧ (synthWindow n c (synthFragL n c next) k).1
            ≤ (synthWindow n c (synthFragL n c next) k).2
        ∧ (synthWindow n c (synthFragL n c next) k).2 ≤ ((seq ++ seq).length : Int)) :
    ∃ frags, n.synthTo c next seq = some frags
      ∧ frags.length = (n.synthDist c next).toNat
      ∧ ∀ k, k < frags.length → ∃ s,
          slice (seq ++ seq) (synthWindow n c (synthFragL n c next) k).1
              (synthWindow n c (synthFragL n c next) k).2 = some s
          ∧ frags[k]? = some
              { ID := n.id ++ "-synthetic-" ++ toString (k + 1)
                Seq := s
                Entry := ""
                «Type» := FragType.Synthetic
                Cost := c.SynthCost (n.seq.length : Int) + n.cost } := by
  by_cases h0 : n.synthDist c next = 0
  · refine ⟨[], by simp [node.synthTo, h0], by simp [h0], ?_⟩
    intro k hk
    simp at hk
  · obtain ⟨frags, hf⟩ := synthLoop_isSome n c (synthFragL n c next) (seq ++ seq)
      (n.synthDist c next).toNat 0 [] (by
        intro k hk
        rw [Nat.zero_add]
        exact hrange k (by omega))
    obtain ⟨rest, hfr, hlen, hk⟩ := synthLoop_spec n c _ _ _ 0 [] frags hf
    simp only [List.nil_append] at hfr
    subst hfr
    refine ⟨frags, by simp [node.synthTo, h0, hf], hlen, ?_⟩
    intro k hklt
    obtain ⟨s, hs1, hs2⟩ := hk k (by omega)
    simp only [Nat.zero_add] at hs1 hs2
    exact ⟨s, hs1, hs2⟩

theorem synthDist_pos_dist (n next : node) (c : config.Config)
    (hC : 1 ≤ n.synthDist c next) : 5 < n.distTo next := by
  by_contra h
  rw [synthDist_of_le n next c (by omega)] at hC
  omega

theorem synthFragL_eq (n next : node) (c : config.Config)
    (hC : 1 ≤ n.synthDist c next) :
    synthFragL n c next
      = max c.Synthesis.MinLength (n.distTo next / n.synthDist c next)
          + 2 * c.Fragments.MinHomology := by
  have hd := synthDist_pos_dist n next c hC
  have ht : (n.distTo next).tdiv (n.synthDist c next)
      = n.distTo next / n.synthDist c next :=
    Int.tdiv_eq_ediv (by omega) (by omega)
  unfold synthFragL
  simp only [ht]
  split <;> omega

end defrag

namespace defrag

/-! ### A worked call of `synthTo`

The node `(0, 30)` joined to the node `(40, 60)` under `config.tiny`: the
distance is 10, two fragments are needed, `fragL` is `10 / 2 + 2 * 2 = 9`, and
the windows are `[28, 39)` and `[37, 48)` of the doubled 20-base sequence. -/

theorem tiny_synthDist :
    node.synthDist ⟨"p1", "ACGT", "0p1", 0, 30, 0⟩ config.tiny
      ⟨"p2", "ACGT", "40p2", 40, 60, 0⟩ = 2 := by
  rw [synthDist_of_gt _ _ _ (by decide), Int.ceil_eq_iff]
  norm_num [node.distTo, config.tiny]

theorem tiny_synthFragL :
    synthFragL ⟨"p1", "ACGT", "0p1", 0, 30, 0⟩ config.tiny
      ⟨"p2", "ACGT", "40p2", 40, 60, 0⟩ = 9 := by
  unfold synthFragL
  rw [tiny_synthDist]
  decide

theorem tiny_range :
    ∀ k : Nat, (k : Int) < node.synthDist ⟨"p1", "ACGT", "0p1", 0, 30, 0⟩ config.tiny
        ⟨"p2", "ACGT", "40p2", 40, 60, 0⟩ →
      0 ≤ (synthWindow ⟨"p1", "ACGT", "0p1", 0, 30, 0⟩ config.tiny
            (synthFragL ⟨"p1", "ACGT", "0p1", 0, 30, 0⟩ config.tiny
              ⟨"p2", "ACGT", "40p2", 40, 60, 0⟩) k).1
        ∧ (synthWindow ⟨"p1", "ACGT", "0p1", 0, 30, 0⟩ config.tiny
            (synthFragL ⟨"p1", "ACGT", "0p1", 0, 30, 0⟩ config.tiny
              ⟨"p2", "ACGT", "40p2", 40, 60, 0⟩) k).1
          ≤ (synthWindow ⟨"p1", "ACGT", "0p1", 0, 30, 0⟩ config.tiny
            (synthFragL ⟨"p1", "ACGT", "0p1", 0, 30, 0⟩ config.tiny
              ⟨"p2", "ACGT", "40p2", 40, 60, 0⟩) k).2
        ∧ (synthWindow ⟨"p1", "ACGT", "0p1", 0, 30, 0⟩ config.tiny
            (synthFragL ⟨"p1", "ACGT", "0p1", 0, 30, 0⟩ config.tiny
              ⟨"p2", "ACGT", "40p2", 40, 60, 0⟩) k).2
          ≤ ((("AAAAACCCCCGGGGGTTTTTAAAAACCCCC" : String)
              ++ "AAAAACCCCCGGGGGTTTTTAAAAACCCCC").length : Int) := by
  intro k hk
  rw [tiny_synthDist] at hk
  rw [tiny_synthFragL]
  have hlen : ((("AAAAACCCCCGGGGGTTTTTAAAAACCCCC" : String)
      ++ "AAAAACCCCCGGGGGTTTTTAAAAACCCCC").length : Int) = 60 := by decide
  rw [hlen]
  simp only [synthWindow, config.tiny]
  omega

theorem tiny_synthTo :
    node.synthTo ⟨"p1", "ACGT", "0p1", 0, 30, 0⟩ config.tiny
        ⟨"p2", "ACGT", "40p2", 40, 60, 0⟩ "AAAAACCCCCGGGGGTTTTTAAAAACCCCC"
      = some [⟨"p1-synthetic-1", "CCAAAAACCCC", "", FragType.Synthetic, 4⟩,
              ⟨"p1-synthetic-2", "CCCGGGGGTTT", "", FragType.Synthetic, 4⟩] := by
  have h2 : (2 : Int).toNat = 2 := rfl
  have hs1 : slice ("AAAAACCCCCGGGGGTTTTTAAAAACCCCC" ++ "AAAAACCCCCGGGGGTTTTTAAAAACCCCC")
      28 39 = some "CCAAAAACCCC" := by decide
  have hs2 : slice ("AAAAACCCCCGGGGGTTTTTAAAAACCCCC" ++ "AAAAACCCCCGGGGGTTTTTAAAAACCCCC")
      37 48 = some "CCCGGGGGTTT" := by decide
  have hw0 : synthWindow ⟨"p1", "ACGT", "0p1", 0, 30, 0⟩ config.tiny 9 0 = (28, 39) := by
    decide
  have hw1 : synthWindow ⟨"p1", "ACGT", "0p1", 0, 30, 0⟩ config.tiny 9 (0 + 1) = (37, 48) := by
    decide
  have hid1 : ("p1" : String) ++ "-synthetic-" ++ toString (0 + 1) = "p1-synthetic-1" := by
    decide
  have hid2 : ("p1" : String) ++ "-synthetic-" ++ toString (0 + 1 + 1) = "p1-synthetic-2" := by
    decide
  have hlen : (("ACGT" : String).length : Int) = 4 := by decide
  have hcost : config.tiny.SynthCost 4 + 0 = 4 := by norm_num [config.tiny]
  have hne : ¬ (2 : Int) = 0 := by decide
  unfold node.synthTo
  rw [tiny_synthDist, tiny_synthFragL]
  simp only [hne, if_false, h2, synthLoop, hw0, hw1, hs1, hs2, hid1, hid2, hlen, hcost,
    List.nil_append, List.singleton_append]

end defrag

namespace defrag

theorem synthWindow_fst (n : node) (c : config.Config) (fragL : Int) (k : Nat) :
    (synthWindow n c fragL k).1 = n.«end» - c.Fragments.MinHomology + (k : Int) * fragL :=
  rfl

theorem synthWindow_snd (n : node) (c : config.Config) (fragL : Int) (k : Nat) :
    (synthWindow n c fragL k).2
      = n.«end» - c.Fragments.MinHomology + (k : Int) * fragL + fragL
          + c.Fragments.MinHomology :=
  rfl

theorem synthWindow_next (n : node) (c : config.Config) (fragL : Int) (k : Nat) :
    (synthWindow n c fragL k).2
      = (synthWindow n c fragL (k + 1)).1 + c.Fragments.MinHomology := by
  rw [synthWindow_fst, synthWindow_snd]
  push_cast
  ring

/-- Consecutive windows that overlap leave no gap: a position from the start
of the first window up to the end of window `j` lies in one of the windows
`0..j`. -/
theorem synthWindow_cover (n : node) (c : config.Config) (fragL : Int)
    (hMH : 0 ≤ c.Fragments.MinHomology) (p : Int)
    (hp : n.«end» - c.Fragments.MinHomology ≤ p) :
    ∀ j : Nat, p < (synthWindow n c fragL j).2 →
      ∃ k : Nat, k ≤ j ∧ (synthWindow n c fragL k).1 ≤ p ∧ p < (synthWindow n c fragL k).2
  | 0, h => ⟨0, le_refl 0, by rw [synthWindow_fst]; simpa using hp, h⟩
  | j + 1, h => by
    by_cases hj : p < (synthWindow n c fragL j).2
    · obtain ⟨k, hk, hk1, hk2⟩ := synthWindow_cover n c fragL hMH p hp j hj
      exact ⟨k, by omega, hk1, hk2⟩
    · refine ⟨j + 1, le_refl _, ?_, h⟩
      have := synthWindow_next n c fragL j
      omega

/-- The `fragC` strides of length `fragL` reach past the gap and one more
homology arm. -/
theorem synthFragL_reach (n next : node) (c : config.Config)
    (hC : 1 ≤ n.synthDist c next) (hMH : 1 ≤ c.Fragments.MinHomology) :
    n.distTo next + c.Fragments.MinHomology
      ≤ n.synthDist c next * synthFragL n c next := by
  have hd := synthDist_pos_dist n next c hC
  have hL := synthFragL_eq n next c hC
  have hq : n.distTo next / n.synthDist c next + 2 * c.Fragments.MinHomology
      ≤ synthFragL n c next := by
    rw [hL]
    have := le_max_right c.Synthesis.MinLength (n.distTo next / n.synthDist c next)
    omega
  have hdiv := Int.emod_add_ediv (n.distTo next) (n.synthDist c next)
  have hmod := Int.emod_lt_of_pos (n.distTo next) (show 0 < n.synthDist c next by omega)
  have hmul : n.synthDist c next
        * (n.distTo next / n.synthDist c next + 2 * c.Fragments.MinHomology)
      ≤ n.synthDist c next * synthFragL n c next :=
    mul_le_mul_of_nonneg_left hq (by omega)
  have hprod : 0 ≤ (n.synthDist c next - 1) * (c.Fragments.MinHomology - 1) :=
    mul_nonneg (by omega) (by omega)
  nlinarith

end defrag

namespace defrag

/-- When `synthTo` returns, it returns one fragment per iteration, the
`k`-th cut at window `k` and numbered `k + 1`. -/
theorem synthTo_of_some (n next : node) (c : config.Config) (seq : String)
    (frags : List Fragment) (h : n.synthTo c next seq = some frags) :
    (n.synthDist c next = 0 → frags = [])
      ∧ frags.length = (n.synthDist c next).toNat
      ∧ ∀ k, k < frags.length → ∃ s,
          slice (seq ++ seq) (synthWindow n c (synthFragL n c next) k).1
              (synthWindow n c (synthFragL n c next) k).2 = some s
          ∧ frags[k]? = some
              { ID := n.id ++ "-synthetic-" ++ toString (k + 1)
                Seq := s
                Entry := ""
                «Type» := FragType.Synthetic
                Cost := c.SynthCost (n.seq.length : Int) + n.cost } := by
  by_cases h0 : n.synthDist c next = 0
  · have : frags = [] := by
      simp only [node.synthTo, h0, if_true, Option.some.injEq] at h
      exact h.symm
    subst this
    refine ⟨fun _ => rfl, by simp [h0], ?_⟩
    intro k hk
    simp at hk
  · have hf : synthLoop n c (synthFragL n c next) (seq ++ seq)
        (n.synthDist c next).toNat 0 [] = some frags := by
      simpa [node.synthTo, h0] using h
    obtain ⟨rest, hfr, hlen, hk⟩ := synthLoop_spec n c _ _ _ 0 [] frags hf
    simp only [List.nil_append] at hfr
    subst hfr
    refine ⟨fun e => absurd e h0, hlen, ?_⟩
    intro k hklt
    obtain ⟨s, hs1, hs2⟩ := hk k (by omega)
    simp only [Nat.zero_add] at hs1 hs2
    exact ⟨s, hs1, hs2⟩

end defrag

/-! ## Claims about `synthTo` -/

namespace defrag

/-- C14: when every slice is in range, `n.synthTo(next, seq)` returns; it
returns no fragments when `n.synthDist(next) = 0` and otherwise exactly
`n.synthDist(next)` fragments (a count that is never negative for a positive
`Synthesis.MaxLength`), all of type `Synthetic`, the `k`-th of which, counted
from 1 in order, has ID `<n.id>-synthetic-<k>`. -/
theorem synthTo_count_and_ids (n next : node) (c : config.Config) (seq : String)
    (hrange : ∀ k : Nat, (k : Int) < n.synthDist c next →
      0 ≤ (synthWindow n c (synthFragL n c next) k).1
        ∧ (synthWindow n c (synthFragL n c next) k).1
            ≤ (synthWindow n c (synthFragL n c next) k).2
        ∧ (synthWindow n c (synthFragL n c next) k).2 ≤ ((seq ++ seq).length : Int)) :
    ∃ frags, n.synthTo c next seq = some frags
      ∧ (n.synthDist c next = 0 → frags = [])
      ∧ (0 ≤ n.synthDist c next → (frags.length : Int) = n.synthDist c next)
      ∧ (0 < c.Synthesis.MaxLength → (frags.length : Int) = n.synthDist c next)
      ∧ ∀ k, k < frags.length → ∃ fr, frags[k]? = some fr
          ∧ fr.«Type» = FragType.Synthetic
          ∧ fr.ID = n.id ++ "-synthetic-" ++ toString (k + 1) := by
  obtain ⟨frags, hf, _, _⟩ := synthTo_spec n next c seq hrange
  obtain ⟨h0, hlen, hk⟩ := synthTo_of_some n next c seq frags hf
  refine ⟨frags, hf, h0, ?_, ?_, ?_⟩
  · intro h; rw [hlen]; omega
  · intro h
    have := synthDist_nonneg n next c h
    rw [hlen]; omega
  · intro k hklt
    obtain ⟨s, _, hs⟩ := hk k hklt
    exact ⟨_, hs, rfl, rfl⟩

theorem synthTo_count_and_ids_witness :
    ∃ frags, node.synthTo ⟨"p1", "ACGT", "0p1", 0, 30, 0⟩ config.tiny
        ⟨"p2", "ACGT", "40p2", 40, 60, 0⟩ "AAAAACCCCCGGGGGTTTTTAAAAACCCCC" = some frags
      ∧ (node.synthDist ⟨"p1", "ACGT", "0p1", 0, 30, 0⟩ config.tiny
          ⟨"p2", "ACGT", "40p2", 40, 60, 0⟩ = 0 → frags = [])
      ∧ (0 ≤ node.synthDist ⟨"p1", "ACGT", "0p1", 0, 30, 0⟩ config.tiny
          ⟨"p2", "ACGT", "40p2", 40, 60, 0⟩ →
          (frags.length : Int) = node.synthDist ⟨"p1", "ACGT", "0p1", 0, 30, 0⟩ config.tiny
            ⟨"p2", "ACGT", "40p2", 40, 60, 0⟩)
      ∧ (0 < config.tiny.Synthesis.MaxLength →
          (frags.length : Int) = node.synthDist ⟨"p1", "ACGT", "0p1", 0, 30, 0⟩ config.tiny
            ⟨"p2", "ACGT", "40p2", 40, 60, 0⟩)
      ∧ ∀ k, k < frags.length → ∃ fr, frags[k]? = some fr
          ∧ fr.«Type» = FragType.Synthetic
          ∧ fr.ID = (⟨"p1", "ACGT", "0p1", 0, 30, 0⟩ : node).id ++ "-synthetic-"
              ++ toString (k + 1) :=
  synthTo_count_and_ids ⟨"p1", "ACGT", "0p1", 0, 30, 0⟩ ⟨"p2", "ACGT", "40p2", 40, 60, 0⟩
    config.tiny "AAAAACCCCCGGGGGTTTTTAAAAACCCCC" tiny_range

/-- The length of what `synthTo` cuts: for `c = n.synthDist(next) ≥ 1` and
in-range slices, every sequence it returns is `fragL + Fragments.MinHomology`
bases long, where `fragL = max(Synthesis.MinLength, distTo(n,next) / c)
+ 2 * Fragments.MinHomology` is the fragment length computed before the loop:
the slice runs from `start` to `start + fragL + MinHomology`. -/
theorem synthTo_cut_length (n next : node) (c : config.Config) (seq : String)
    (hC : 1 ≤ n.synthDist c next)
    (hrange : ∀ k : Nat, (k : Int) < n.synthDist c next →
      0 ≤ (synthWindow n c (synthFragL n c next) k).1
        ∧ (synthWindow n c (synthFragL n c next) k).1
            ≤ (synthWindow n c (synthFragL n c next) k).2
        ∧ (synthWindow n c (synthFragL n c next) k).2 ≤ ((seq ++ seq).length : Int)) :
    ∃ frags, n.synthTo c next seq = some frags
      ∧ ∀ fr ∈ frags, (fr.Seq.length : Int)
          = max c.Synthesis.MinLength (n.distTo next / n.synthDist c next)
              + 2 * c.Fragments.MinHomology + c.Fragments.MinHomology := by
  obtain ⟨frags, hf, _, hk⟩ := synthTo_spec n next c seq hrange
  refine ⟨frags, hf, ?_⟩
  intro fr hfr
  obtain ⟨k, hkfr⟩ := List.mem_iff_getElem?.mp hfr
  have hklt : k < frags.length := by
    by_contra hge
    rw [List.getElem?_eq_none (by omega)] at hkfr
    exact Option.noConfusion hkfr
  obtain ⟨s, hs1, hs2⟩ := hk k hklt
  rw [hkfr] at hs2
  have hfrs : fr.Seq = s := by rw [Option.some.inj hs2]
  have hlen := (slice_length _ _ _ s hs1).2.2.2
  rw [hfrs, hlen, synthWindow_fst, synthWindow_snd, synthFragL_eq n next c hC]
  ring

/-- C15 (the code departs from the claim and from its own comments): for the
node `p1 = [0, 30)` followed by `p2 = [40, 60)` with `Synthesis.MinLength = 3`,
`Synthesis.MaxLength = 6` and `Fragments.MinHomology = 2`, `synthDist` is 2 and
the fragment length `fragL = max(MinLength, distTo / c) + 2 * MinHomology`,
which the code computes as the length of each synthesized fragment with
homology on either end, is 9; yet `synthTo` returns two sequences of 11 bases,
because the slice bound is `start + fragL + MinHomology`. -/
theorem synthTo_cuts_extra_arm :
    node.synthTo ⟨"p1", "ACGT", "0p1", 0, 30, 0⟩ config.tiny
        ⟨"p2", "ACGT", "40p2", 40, 60, 0⟩ "AAAAACCCCCGGGGGTTTTTAAAAACCCCC"
      = some [⟨"p1-synthetic-1", "CCAAAAACCCC", "", FragType.Synthetic, 4⟩,
              ⟨"p1-synthetic-2", "CCCGGGGGTTT", "", FragType.Synthetic, 4⟩]
      ∧ node.synthDist ⟨"p1", "ACGT", "0p1", 0, 30, 0⟩ config.tiny
          ⟨"p2", "ACGT", "40p2", 40, 60, 0⟩ = 2
      ∧ synthFragL ⟨"p1", "ACGT", "0p1", 0, 30, 0⟩ config.tiny
          ⟨"p2", "ACGT", "40p2", 40, 60, 0⟩ = 9
      ∧ ("CCAAAAACCCC" : String).length = 11
      ∧ ("CCCGGGGGTTT" : String).length = 11
      ∧ max config.tiny.Synthesis.MinLength
            (node.distTo ⟨"p1", "ACGT", "0p1", 0, 30, 0⟩ ⟨"p2", "ACGT", "40p2", 40, 60, 0⟩ / 2)
          + 2 * config.tiny.Fragments.MinHomology = 9 :=
  ⟨tiny_synthTo, tiny_synthDist, tiny_synthFragL, by decide, by decide, by decide⟩

/-- C19: for `c = n.synthDist(next) ≥ 1`, `Fragments.MinHomology ≥ 1`,
`Synthesis.MaxLength > 0` and in-range slices, `synthTo` returns `c`
fragments, the `k`-th of which is the slice of the doubled sequence at window
`k`; the windows start at `n.end - MinHomology`; each window starts after the
one before it and before that one ends, the two sharing exactly `MinHomology`
bases; the last window ends at or beyond `next.start + MinHomology`; so every
position from `n.end - MinHomology` up to `next.start + MinHomology` lies in
one of the windows, and hence in one of the returned fragments. -/
theorem synthTo_windows_cover (n next : node) (c : config.Config) (seq : String)
    (hC : 1 ≤ n.synthDist c next) (hMH : 1 ≤ c.Fragments.MinHomology)
    (_hM : 0 < c.Synthesis.MaxLength)
    (hrange : ∀ k : Nat, (k : Int) < n.synthDist c next →
      0 ≤ (synthWindow n c (synthFragL n c next) k).1
        ∧ (synthWindow n c (synthFragL n c next) k).1
            ≤ (synthWindow n c (synthFragL n c next) k).2
        ∧ (synthWindow n c (synthFragL n c next) k).2 ≤ ((seq ++ seq).length : Int)) :
    (∃ frags, n.synthTo c next seq = some frags
        ∧ (frags.length : Int) = n.synthDist c next
        ∧ (∀ k, k < frags.length → ∃ fr, frags[k]? = some fr
            ∧ slice (seq ++ seq) (synthWindow n c (synthFragL n c next) k).1
                (synthWindow n c (synthFragL n c next) k).2 = some fr.Seq
            ∧ (fr.Seq.length : Int)
                = (synthWindow n c (synthFragL n c next) k).2
                  - (synthWindow n c (synthFragL n c next) k).1)
        ∧ (∀ p : Int, n.«end» - c.Fragments.MinHomology ≤ p →
            p < next.start + c.Fragments.MinHomology →
            ∃ k fr, frags[k]? = some fr
              ∧ slice (seq ++ seq) (synthWindow n c (synthFragL n c next) k).1
                  (synthWindow n c (synthFragL n c next) k).2 = some fr.Seq
              ∧ (synthWindow n c (synthFragL n c next) k).1 ≤ p
              ∧ p < (synthWindow n c (synthFragL n c next) k).2))
      ∧ (synthWindow n c (synthFragL n c next) 0).1 = n.«end» - c.Fragments.MinHomology
      ∧ (∀ k : Nat, (k : Int) + 1 < n.synthDist c next →
          (synthWindow n c (synthFragL n c next) k).1
              < (synthWindow n c (synthFragL n c next) (k + 1)).1
            ∧ (synthWindow n c (synthFragL n c next) (k + 1)).1
              < (synthWindow n c (synthFragL n c next) k).2
            ∧ (synthWindow n c (synthFragL n c next) k).2
              < (synthWindow n c (synthFragL n c next) (k + 1)).2
            ∧ (synthWindow n c (synthFragL n c next) k).2
                - (synthWindow n c (synthFragL n c next) (k + 1)).1
              = c.Fragments.MinHomology)
      ∧ next.start + c.Fragments.MinHomology
          ≤ (synthWindow n c (synthFragL n c next) ((n.synthDist c next).toNat - 1)).2
      ∧ (∀ p : Int, n.«end» - c.Fragments.MinHomology ≤ p →
          p < next.start + c.Fragments.MinHomology →
          ∃ k : Nat, (k : Int) < n.synthDist c next
            ∧ (synthWindow n c (synthFragL n c next) k).1 ≤ p
            ∧ p < (synthWindow n c (synthFragL n c next) k).2)
      ∧ (∀ (seq2 : String) (frags : List Fragment), n.synthTo c next seq2 = some frags →
          (frags.length : Int) = n.synthDist c next
            ∧ ∀ k, k < frags.length → ∃ fr, frags[k]? = some fr
                ∧ slice (seq2 ++ seq2) (synthWindow n c (synthFragL n c next) k).1
                    (synthWindow n c (synthFragL n c next) k).2 = some fr.Seq) := by
  have hd := synthDist_pos_dist n next c hC
  have hL := synthFragL_eq n next c hC
  have hdivnn : 0 ≤ n.distTo next / n.synthDist c next :=
    Int.ediv_nonneg (by omega) (by omega)
  have hLpos : 0 < synthFragL n c next := by
    rw [hL]
    have := le_max_right c.Synthesis.MinLength (n.distTo next / n.synthDist c next)
    omega
  have hreach := synthFragL_reach n next c hC hMH
  have hlast : next.start + c.Fragments.MinHomology
      ≤ (synthWindow n c (synthFragL n c next) ((n.synthDist c next).toNat - 1)).2 := by
    rw [synthWindow_snd]
    have hcast : (((n.synthDist c next).toNat - 1 : Nat) : Int) = n.synthDist c next - 1 := by
      omega
    rw [hcast]
    have hdist : n.distTo next = next.start - n.«end» := rfl
    have hexp : (n.synthDist c next - 1) * synthFragL n c next + synthFragL n c next
        = n.synthDist c next * synthFragL n c next := by ring
    linarith
  have hcover : ∀ p : Int, n.«end» - c.Fragments.MinHomology ≤ p →
      p < next.start + c.Fragments.MinHomology →
      ∃ k : Nat, (k : Int) < n.synthDist c next
        ∧ (synthWindow n c (synthFragL n c next) k).1 ≤ p
        ∧ p < (synthWindow n c (synthFragL n c next) k).2 := by
    intro p hp1 hp2
    obtain ⟨k, hk, hk1, hk2⟩ :=
      synthWindow_cover n c (synthFragL n c next) (by omega) p hp1
        ((n.synthDist c next).toNat - 1) (by omega)
    exact ⟨k, by omega, hk1, hk2⟩
  have hsome : ∀ (seq2 : String) (frags : List Fragment), n.synthTo c next seq2 = some frags →
      (frags.length : Int) = n.synthDist c next
        ∧ ∀ k, k < frags.length → ∃ fr, frags[k]? = some fr
            ∧ slice (seq2 ++ seq2) (synthWindow n c (synthFragL n c next) k).1
                (synthWindow n c (synthFragL n c next) k).2 = some fr.Seq := by
    intro seq2 frags hf
    obtain ⟨_, hlen, hk⟩ := synthTo_of_some n next c seq2 frags hf
    refine ⟨by rw [hlen]; omega, ?_⟩
    intro k hklt
    obtain ⟨s, hs1, hs2⟩ := hk k hklt
    exact ⟨_, hs2, hs1⟩
  refine ⟨?_, by rw [synthWindow_fst]; simp, ?_, hlast, hcover, hsome⟩
  · obtain ⟨frags, hf, _, _⟩ := synthTo_spec n next c seq hrange
    obtain ⟨hlen, hk⟩ := hsome seq frags hf
    refine ⟨frags, hf, hlen, ?_, ?_⟩
    · intro k hklt
      obtain ⟨fr, hfr, hs⟩ := hk k hklt
      exact ⟨fr, hfr, hs, (slice_length _ _ _ _ hs).2.2.2⟩
    · intro p hp1 hp2
      obtain ⟨k, hklt, hk1, hk2⟩ := hcover p hp1 hp2
      obtain ⟨fr, hfr, hs⟩ := hk k (by omega)
      exact ⟨k, fr, hfr, hs, hk1, hk2⟩
  · intro k _
    have hnext := synthWindow_next n c (synthFragL n c next) k
    have h1 := synthWindow_fst n c (synthFragL n c next) k
    have h2 := synthWindow_fst n c (synthFragL n c next) (k + 1)
    have h3 := synthWindow_snd n c (synthFragL n c next) (k + 1)
    have h4 := synthWindow_snd n c (synthFragL n c next) k
    push_cast at h2 h3
    refine ⟨by linarith, by linarith, by linarith, by linarith⟩

theorem synthTo_windows_cover_witness :
    ∃ frags, node.synthTo ⟨"p1", "ACGT", "0p1", 0, 30, 0⟩ config.tiny
        ⟨"p2", "ACGT", "40p2", 40, 60, 0⟩ "AAAAACCCCCGGGGGTTTTTAAAAACCCCC" = some frags
      ∧ (frags.length : Int) = node.synthDist ⟨"p1", "ACGT", "0p1", 0, 30, 0⟩ config.tiny
          ⟨"p2", "ACGT", "40p2", 40, 60, 0⟩
      ∧ ∀ p : Int, (30 : Int) - 2 ≤ p → p < 40 + 2 →
          ∃ k fr, frags[k]? = some fr
            ∧ slice ("AAAAACCCCCGGGGGTTTTTAAAAACCCCC" ++ "AAAAACCCCCGGGGGTTTTTAAAAACCCCC")
                (synthWindow ⟨"p1", "ACGT", "0p1", 0, 30, 0⟩ config.tiny
                  (synthFragL ⟨"p1", "ACGT", "0p1", 0, 30, 0⟩ config.tiny
                    ⟨"p2", "ACGT", "40p2", 40, 60, 0⟩) k).1
                (synthWindow ⟨"p1", "ACGT", "0p1", 0, 30, 0⟩ config.tiny
                  (synthFragL ⟨"p1", "ACGT", "0p1", 0, 30, 0⟩ config.tiny
                    ⟨"p2", "ACGT", "40p2", 40, 60, 0⟩) k).2 = some fr.Seq
            ∧ (synthWindow ⟨"p1", "ACGT", "0p1", 0, 30, 0⟩ config.tiny
                  (synthFragL ⟨"p1", "ACGT", "0p1", 0, 30, 0⟩ config.tiny
                    ⟨"p2", "ACGT", "40p2", 40, 60, 0⟩) k).1 ≤ p
            ∧ p < (synthWindow ⟨"p1", "ACGT", "0p1", 0, 30, 0⟩ config.tiny
                  (synthFragL ⟨"p1", "ACGT", "0p1", 0, 30, 0⟩ config.tiny
                    ⟨"p2", "ACGT", "40p2", 40, 60, 0⟩) k).2 :=
  (synthTo_windows_cover ⟨"p1", "ACGT", "0p1", 0, 30, 0⟩ ⟨"p2", "ACGT", "40p2", 40, 60, 0⟩
    config.tiny "AAAAACCCCCGGGGGTTTTTAAAAACCCCC"
    (by rw [tiny_synthDist]; decide) (by decide) (by decide) tiny_range).1.imp
    (fun _ h => ⟨h.1, h.2.1, h.2.2.2⟩)

end defrag

/-! ## Facts about `reach` -/

namespace defrag

/-- What the loop of `reach` returns on the nodes `ms` standing at positions
`i, i + 1, ...`: it appends the first `k` positions, where the first `k`
nodes hold at most `synthCount` nodes farther than `-MinHomology`, and it
stops either at the end of `ms` or at a node farther than `-MinHomology` with
the budget used up. -/
theorem reachLoop_spec (n : node) (c : config.Config) :
    ∀ (ms : List node) (i : Nat) (synthCount : Int) (reachable : List Nat),
      0 ≤ synthCount →
      ∃ k, reachLoop n c ms i synthCount reachable = reachable ++ List.range' i k
        ∧ k ≤ ms.length
        ∧ (((ms.take k).countP
              (fun m => decide (n.distTo m > -c.Fragments.MinHomology)) : Nat) : Int)
            ≤ synthCount
        ∧ (k < ms.length → ∃ m, ms[k]? = some m
            ∧ n.distTo m > -c.Fragments.MinHomology
            ∧ (((ms.take k).countP
                  (fun m => decide (n.distTo m > -c.Fragments.MinHomology)) : Nat) : Int)
                = synthCount)
  | [], i, synthCount, reachable, h =>
    ⟨0, by simp [reachLoop], le_refl _, by simpa using h, fun hk => by simp at hk⟩
  | m :: ms, i, synthCount, reachable, h => by
    by_cases hov : n.distTo m ≤ -c.Fragments.MinHomology
    · obtain ⟨k, hk1, hk2, hk3, hk4⟩ :=
        reachLoop_spec n c ms (i + 1) synthCount (reachable ++ [i]) h
      have hfar : ¬ n.distTo m > -c.Fragments.MinHomology := by omega
      refine ⟨k + 1, ?_, by simpa using hk2, ?_, ?_⟩
      · simp only [reachLoop, hov, if_true, hk1, List.range'_succ]
        simp
      · simpa [List.countP_cons, hfar] using hk3
      · intro hlt
        obtain ⟨m2, hm1, hm2, hm3⟩ := hk4 (by simpa using hlt)
        exact ⟨m2, by simpa using hm1, hm2, by simpa [List.countP_cons, hfar] using hm3⟩
    · have hfar : n.distTo m > -c.Fragments.MinHomology := by omega
      by_cases hsc : synthCount > 0
      · obtain ⟨k, hk1, hk2, hk3, hk4⟩ :=
          reachLoop_spec n c ms (i + 1) (synthCount - 1) (reachable ++ [i]) (by omega)
        refine ⟨k + 1, ?_, by simpa using hk2, ?_, ?_⟩
        · simp only [reachLoop, hov, if_false, hsc, if_true, hk1, List.range'_succ]
          simp
        · simp only [List.take_succ_cons, List.countP_cons, hfar, decide_True, if_true]
          push_cast
          omega
        · intro hlt
          obtain ⟨m2, hm1, hm2, hm3⟩ := hk4 (by simpa using hlt)
          refine ⟨m2, by simpa using hm1, hm2, ?_⟩
          simp only [List.take_succ_cons, List.countP_cons, hfar, decide_True, if_true]
          push_cast
          omega
      · have hzero : synthCount = 0 := by omega
        refine ⟨0, by simp [reachLoop, hov, hsc], Nat.zero_le _, by simpa using h, ?_⟩
        intro _
        exact ⟨m, by simp, hfar, by simp [hzero]⟩

/-- A prefix that runs past a node farther than `-MinHomology` counts that
node on top of the nodes before it. -/
theorem countP_take_gt (p : node → Bool) (ms : List node) (k j : Nat) (m : node)
    (hm : ms[k]? = some m) (hp : p m = true) (hj : k < j) :
    (ms.take k).countP p + 1 ≤ (ms.take j).countP p := by
  have h1 : (ms.take (k + 1)).countP p = (ms.take k).countP p + 1 := by
    rw [List.take_succ, List.countP_append, hm]
    simp [List.countP_cons, hp]
  rw [← h1]
  exact (List.take_sublist_take_left ms (by omega)).countP_le p

end defrag

/-! ## Claims about `reach` -/

namespace defrag

/-- C20: for `synthCount ≥ 0`, `n.reach(nodes, i, synthCount)` returns
exactly the consecutive indexes `i+1, ..., i+k` in ascending order, where the
`k` nodes directly after position `i` form the longest run that holds at most
`synthCount` nodes with `distTo(n, nodes[j]) > -MinHomology`; when the run
stops before the end of the list, the node it stops at is such a node and
the budget is used up, and nothing past it is returned. -/
theorem reach_spec (n : node) (c : config.Config) (nodes : List node) (i : Nat)
    (synthCount : Int) (hsc : 0 ≤ synthCount) :
    ∃ k, n.reach c nodes i synthCount = List.range' (i + 1) k
      ∧ k ≤ (nodes.drop (i + 1)).length
      ∧ ((((nodes.drop (i + 1)).take k).countP
            (fun m => decide (n.distTo m > -c.Fragments.MinHomology)) : Nat) : Int)
          ≤ synthCount
      ∧ (∀ j, j ≤ (nodes.drop (i + 1)).length →
          ((((nodes.drop (i + 1)).take j).countP
              (fun m => decide (n.distTo m > -c.Fragments.MinHomology)) : Nat) : Int)
            ≤ synthCount → j ≤ k)
      ∧ (i + 1 + k < nodes.length → ∃ m, nodes[i + 1 + k]? = some m
          ∧ ¬ n.distTo m ≤ -c.Fragments.MinHomology
          ∧ ((((nodes.drop (i + 1)).take k).countP
                (fun m => decide (n.distTo m > -c.Fragments.MinHomology)) : Nat) : Int)
              = synthCount) := by
  obtain ⟨k, hk1, hk2, hk3, hk4⟩ :=
    reachLoop_spec n c (nodes.drop (i + 1)) (i + 1) synthCount [] hsc
  have hlen : (nodes.drop (i + 1)).length = nodes.length - (i + 1) := List.length_drop _ _
  refine ⟨k, by simpa [node.reach] using hk1, hk2, hk3, ?_, ?_⟩
  · intro j hj hcount
    by_contra hgt
    have hklt : k < (nodes.drop (i + 1)).length := by omega
    obtain ⟨m, hm1, hm2, hm3⟩ := hk4 hklt
    have := countP_take_gt (fun m => decide (n.distTo m > -c.Fragments.MinHomology))
      (nodes.drop (i + 1)) k j m hm1 (by simpa using hm2) (by omega)
    omega
  · intro hlt
    obtain ⟨m, hm1, hm2, hm3⟩ := hk4 (by omega)
    refine ⟨m, ?_, by omega, hm3⟩
    rw [List.getElem?_drop] at hm1
    exact hm1

theorem reach_spec_witness :
    ∃ k, node.reach ⟨"p1", "ACGT", "0p1", 0, 30, 0⟩ config.tiny
          [⟨"p1", "ACGT", "0p1", 0, 30, 0⟩, ⟨"p2", "ACGT", "40p2", 40, 60, 0⟩,
           ⟨"p3", "ACGT", "20p3", 20, 50, 0⟩, ⟨"p4", "ACGT", "100p4", 100, 150, 0⟩,
           ⟨"p5", "ACGT", "110p5", 110, 160, 0⟩] 0 2
        = List.range' (0 + 1) k
      ∧ k ≤ (([⟨"p1", "ACGT", "0p1", 0, 30, 0⟩, ⟨"p2", "ACGT", "40p2", 40, 60, 0⟩,
           ⟨"p3", "ACGT", "20p3", 20, 50, 0⟩, ⟨"p4", "ACGT", "100p4", 100, 150, 0⟩,
           ⟨"p5", "ACGT", "110p5", 110, 160, 0⟩] : List node).drop (0 + 1)).length :=
  (reach_spec ⟨"p1", "ACGT", "0p1", 0, 30, 0⟩ config.tiny
    [⟨"p1", "ACGT", "0p1", 0, 30, 0⟩, ⟨"p2", "ACGT", "40p2", 40, 60, 0⟩,
     ⟨"p3", "ACGT", "20p3", 20, 50, 0⟩, ⟨"p4", "ACGT", "100p4", 100, 150, 0⟩,
     ⟨"p5", "ACGT", "110p5", 110, 160, 0⟩] 0 2 (by decide)).imp
    (fun _ h => ⟨h.1, h.2.1⟩)

/-- A worked call of `reach` with a budget of two synthesized junctions: the
scan takes positions 1 to 3 and stops at position 4. -/
theorem reach_sample_eval :
    node.reach ⟨"p1", "ACGT", "0p1", 0, 30, 0⟩ config.tiny
        [⟨"p1", "ACGT", "0p1", 0, 30, 0⟩, ⟨"p2", "ACGT", "40p2", 40, 60, 0⟩,
         ⟨"p3", "ACGT", "20p3", 20, 50, 0⟩, ⟨"p4", "ACGT", "100p4", 100, 150, 0⟩,
         ⟨"p5", "ACGT", "110p5", 110, 160, 0⟩] 0 2
      = [1, 2, 3] := by
  decide

end defrag

/-! ## Facts about `Itoa` and `new` -/

namespace defrag

theorem digitChar_spec (d : Nat) (h : d < 10) :
    (Nat.digitChar d).isDigit = true ∧ (Nat.digitChar d).toNat - 48 = d := by
  interval_cases d <;> exact ⟨by decide, by decide⟩

theorem toDigitsCore_isDigit :
    ∀ (fuel n : Nat) (ds : List Char), (∀ ch ∈ ds, ch.isDigit = true) →
      ∀ ch ∈ Nat.toDigitsCore 10 fuel n ds, ch.isDigit = true
  | 0, _, ds, h => by simpa [Nat.toDigitsCore] using h
  | fuel + 1, n, ds, h => by
    have hd := (digitChar_spec (n % 10) (Nat.mod_lt n (by decide))).1
    have hds : ∀ ch ∈ Nat.digitChar (n % 10) :: ds, ch.isDigit = true := by
      intro ch hch
      rcases List.mem_cons.mp hch with e | e
      · rw [e]; exact hd
      · exact h ch e
    simp only [Nat.toDigitsCore]
    split
    · exact hds
    · exact toDigitsCore_isDigit fuel (n / 10) _ hds

theorem toDigitsCore_value :
    ∀ (fuel n : Nat) (ds : List Char), n < fuel →
      (Nat.toDigitsCore 10 fuel n ds).foldl (fun acc ch => 10 * acc + (ch.toNat - 48)) 0
        = ds.foldl (fun acc ch => 10 * acc + (ch.toNat - 48)) n
  | 0, _, _, h => absurd h (Nat.not_lt_zero _)
  | fuel + 1, n, ds, h => by
    have hd := (digitChar_spec (n % 10) (Nat.mod_lt n (by decide))).2
    simp only [Nat.toDigitsCore]
    split
    · rename_i h0
      simp only [List.foldl_cons, hd]
      congr 1
      omega
    · rename_i h0
      rw [toDigitsCore_value fuel (n / 10) _ (by omega)]
      simp only [List.foldl_cons, hd]
      congr 1
      omega

theorem decimalValue_repr (n : Nat) : decimalValue (Nat.repr n).toList = n := by
  unfold decimalValue Nat.repr Nat.toDigits
  rw [show (Nat.toDigitsCore 10 (n + 1) n []).asString.toList
      = Nat.toDigitsCore 10 (n + 1) n [] from rfl]
  rw [toDigitsCore_value (n + 1) n [] (by omega)]
  rfl

theorem repr_isDigit (n : Nat) : ∀ ch ∈ (Nat.repr n).toList, ch.isDigit = true := by
  intro ch hch
  exact toDigitsCore_isDigit (n + 1) n [] (by simp) ch hch

theorem repr_injective (a b : Nat) (h : Nat.repr a = Nat.repr b) : a = b := by
  rw [← decimalValue_repr a, ← decimalValue_repr b, h]

theorem Itoa_ofNat (n : Nat) : Itoa (n : Int) = Nat.repr n := rfl

/-- Two texts, each a run of digits followed by a rest that does not begin
with a digit, are equal only when the runs and the rests are. -/
theorem digits_split : ∀ (l1 l2 r1 r2 : List Char),
    (∀ ch ∈ l1, ch.isDigit = true) → (∀ ch ∈ l2, ch.isDigit = true) →
    (∀ ch, r1.head? = some ch → ch.isDigit = false) →
    (∀ ch, r2.head? = some ch → ch.isDigit = false) →
    l1 ++ r1 = l2 ++ r2 → l1 = l2 ∧ r1 = r2
  | [], [], r1, r2, _, _, _, _, h => ⟨rfl, by simpa using h⟩
  | [], c2 :: l2, r1, r2, _, h2, hr1, _, h => by
    exfalso
    simp only [List.nil_append, List.cons_append] at h
    have hd := h2 c2 (List.mem_cons_self _ _)
    have := hr1 c2 (by rw [h]; rfl)
    rw [hd] at this
    exact Bool.noConfusion this
  | c1 :: l1, [], r1, r2, h1, _, _, hr2, h => by
    exfalso
    simp only [List.nil_append, List.cons_append] at h
    have hd := h1 c1 (List.mem_cons_self _ _)
    have := hr2 c1 (by rw [← h]; rfl)
    rw [hd] at this
    exact Bool.noConfusion this
  | c1 :: l1, c2 :: l2, r1, r2, h1, h2, hr1, hr2, h => by
    simp only [List.cons_append, List.cons.injEq] at h
    obtain ⟨e1, e2⟩ := digits_split l1 l2 r1 r2
      (fun ch hch => h1 ch (List.mem_cons_of_mem _ hch))
      (fun ch hch => h2 ch (List.mem_cons_of_mem _ hch)) hr1 hr2 h.2
    exact ⟨by rw [h.1, e1], e2⟩

end defrag

namespace defrag

theorem leadsWithDigit_false (s : String) (h : leadsWithDigit s = false) :
    ∀ ch, s.toList.head? = some ch → ch.isDigit = false := by
  intro ch hch
  unfold leadsWithDigit at h
  cases hs : s.toList with
  | nil => rw [hs] at hch; simp at hch
  | cons a l =>
    rw [hs] at h hch
    simp only [List.head?_cons, Option.some.injEq] at hch
    rw [← hch]; exact h

/-- The fields that `new` gives a node, for a positive `seqL` and a match
with a non-negative start. -/
theorem new_fields (m : Match) (seqL : Int) (c : config.Config) (n : node)
    (hseqL : 0 < seqL) (hs : 0 ≤ m.Start) (h : new m seqL c = some n) :
    n.id = m.Entry ∧ n.start = m.Start
      ∧ n.uniqueID = Nat.repr (m.Start % seqL).toNat ++ m.Entry
      ∧ 0 ≤ m.Start % seqL := by
  have hne : ¬ seqL = 0 := by omega
  have hmod : m.Start.tmod seqL = m.Start % seqL := Int.tmod_eq_emod hs (by omega)
  have hnn : 0 ≤ m.Start % seqL := Int.emod_nonneg _ (by omega)
  have hcast : m.Start % seqL = (((m.Start % seqL).toNat : Nat) : Int) := by omega
  simp only [new, hne, if_false, Option.some.injEq] at h
  subst h
  refine ⟨rfl, rfl, ?_, hnn⟩
  show Itoa (m.Start.tmod seqL) ++ m.Entry = _
  obtain ⟨k, hk⟩ : ∃ k : Nat, m.Start % seqL = (k : Int) := ⟨_, hcast⟩
  rw [hmod, hk, Itoa_ofNat, Int.toNat_ofNat]

theorem new_isSome (m : Match) (seqL : Int) (c : config.Config) (hseqL : 0 < seqL) :
    ∃ n, new m seqL c = some n := by
  have hne : ¬ seqL = 0 := by omega
  simp [new, hne]

/-- Equality of the uniqueIDs of two nodes built by `new`, in terms of the
ids and the starts modulo `seqL`. -/
theorem uniqueID_eq_cases (m1 m2 : Match) (seqL : Int) (c : config.Config) (n1 n2 : node)
    (hseqL : 0 < seqL) (hs1 : 0 ≤ m1.Start) (hs2 : 0 ≤ m2.Start)
    (h1 : new m1 seqL c = some n1) (h2 : new m2 seqL c = some n2) :
    (n1.id = n2.id → n1.start % seqL = n2.start % seqL → n1.uniqueID = n2.uniqueID)
      ∧ (n1.uniqueID = n2.uniqueID → n1.id = n2.id → n1.start % seqL = n2.start % seqL)
      ∧ (n1.uniqueID = n2.uniqueID → n1.start % seqL = n2.start % seqL → n1.id = n2.id)
      ∧ (leadsWithDigit n1.id = false → leadsWithDigit n2.id = false →
          n1.uniqueID = n2.uniqueID →
          n1.id = n2.id ∧ n1.start % seqL = n2.start % seqL) := by
  obtain ⟨hid1, hst1, hu1, hnn1⟩ := new_fields m1 seqL c n1 hseqL hs1 h1
  obtain ⟨hid2, hst2, hu2, hnn2⟩ := new_fields m2 seqL c n2 hseqL hs2 h2
  rw [hid1, hid2, hst1, hst2, hu1, hu2]
  have hlist : ∀ (a b : Nat) (e1 e2 : String), Nat.repr a ++ e1 = Nat.repr b ++ e2 →
      (Nat.repr a).toList ++ e1.toList = (Nat.repr b).toList ++ e2.toList := by
    intro a b e1 e2 h
    have := congrArg String.toList h
    simpa using this
  have hmodeq : (m1.Start % seqL).toNat = (m2.Start % seqL).toNat →
      m1.Start % seqL = m2.Start % seqL := by
    intro h; omega
  refine ⟨?_, ?_, ?_, ?_⟩
  · intro e1 e2
    rw [e1, e2]
  · intro hu he
    rw [he] at hu
    have := List.append_cancel_right (hlist _ _ _ _ hu)
    exact hmodeq (repr_injective _ _ (String.ext this))
  · intro hu hm
    rw [hm] at hu
    have := List.append_cancel_left (hlist _ _ _ _ hu)
    exact String.ext this
  · intro hd1 hd2 hu
    obtain ⟨e1, e2⟩ := digits_split _ _ _ _ (repr_isDigit _) (repr_isDigit _)
      (leadsWithDigit_false _ hd1) (leadsWithDigit_false _ hd2) (hlist _ _ _ _ hu)
    exact ⟨String.ext e2, hmodeq (repr_injective _ _ (String.ext e1))⟩

end defrag

/-! ## Claims about `uniqueID` -/

namespace assemble

/-- Three worked calls of `new` with target length 100: the match `2abc`
starting at 1, and the match `abc` starting at 12 and at 112. -/
theorem new_sample_eval :
    defrag.new ⟨"2abc", "acgt", 1, 50⟩ 100 (config.sample 20 5)
        = some ⟨"2abc", "ACGT", "12abc", 1, 50, 0⟩
      ∧ defrag.new ⟨"abc", "acgt", 12, 60⟩ 100 (config.sample 20 5)
        = some ⟨"abc", "ACGT", "12abc", 12, 60, 0⟩
      ∧ defrag.new ⟨"abc", "acgt", 112, 160⟩ 100 (config.sample 20 5)
        = some ⟨"abc", "ACGT", "12abc", 112, 160, 0⟩ := by
  have h1 : ¬ ("addgene".toList <:+: ("2abc" : String).toList) := by decide
  have h2 : ¬ ("addgene".toList <:+: ("abc" : String).toList) := by decide
  have h3 : defrag.Itoa (Int.tmod 1 100) ++ "2abc" = "12abc" := by decide
  have h4 : defrag.Itoa (Int.tmod 12 100) ++ "abc" = "12abc" := by decide
  have h5 : defrag.ToUpper "acgt" = "ACGT" := by decide
  have h6 : defrag.Itoa (Int.tmod 112 100) ++ "abc" = "12abc" := by decide
  refine ⟨?_, ?_, ?_⟩
  · simp only [defrag.new, h1, h3, h5]
    rfl
  · simp only [defrag.new, h2, h4, h5]
    rfl
  · simp only [defrag.new, h2, h6, h5]
    rfl

/-- C21, as stated, fails: the matches `2abc` at start 1 and `abc` at start
12, both non-negative, give with `seqL = 100` two nodes with the same
uniqueID `12abc`, although their ids differ and their starts modulo `seqL`
differ; `contains` then reports the second node as present in an assembly
that holds only the first. -/
theorem uniqueID_collision :
    defrag.new ⟨"2abc", "acgt", 1, 50⟩ 100 (config.sample 20 5)
        = some ⟨"2abc", "ACGT", "12abc", 1, 50, 0⟩
      ∧ defrag.new ⟨"abc", "acgt", 12, 60⟩ 100 (config.sample 20 5)
        = some ⟨"abc", "ACGT", "12abc", 12, 60, 0⟩
      ∧ (⟨"2abc", "ACGT", "12abc", 1, 50, 0⟩ : node).uniqueID
        = (⟨"abc", "ACGT", "12abc", 12, 60, 0⟩ : node).uniqueID
      ∧ (⟨"2abc", "ACGT", "12abc", 1, 50, 0⟩ : node).id
        ≠ (⟨"abc", "ACGT", "12abc", 12, 60, 0⟩ : node).id
      ∧ (⟨"2abc", "ACGT", "12abc", 1, 50, 0⟩ : node).start % 100
        ≠ (⟨"abc", "ACGT", "12abc", 12, 60, 0⟩ : node).start % 100
      ∧ assembly.contains { nodes := [⟨"2abc", "ACGT", "12abc", 1, 50, 0⟩], cost := 0, synths := 0 }
          ⟨"abc", "ACGT", "12abc", 12, 60, 0⟩ = true :=
  ⟨new_sample_eval.1, new_sample_eval.2.1, by decide, by decide, by decide, by decide⟩

/-- C21, amended: for nodes built by `new` with the same target length
`seqL > 0` from matches with non-negative start, the same id and the same
start modulo `seqL` give the same uniqueID; nodes with the same uniqueID have
the same id exactly when they have the same start modulo `seqL`; and when
neither id begins with a decimal digit, two nodes have equal uniqueID if and
only if they have the same id and the same start modulo `seqL`. Hence, for an
assembly and a node built so from matches whose ids do not begin with a
decimal digit, `contains(n)` returns true if and only if some node of the
assembly has the same id and the same start modulo `seqL` as `n`. -/
theorem uniqueID_identifies (seqL : Int) (c : config.Config) (hseqL : 0 < seqL)
    (m1 m2 : defrag.Match) (n1 n2 : node) (hs1 : 0 ≤ m1.Start) (hs2 : 0 ≤ m2.Start)
    (h1 : defrag.new m1 seqL c = some n1) (h2 : defrag.new m2 seqL c = some n2) :
    (n1.id = n2.id ∧ n1.start % seqL = n2.start % seqL → n1.uniqueID = n2.uniqueID)
      ∧ (n1.uniqueID = n2.uniqueID →
          (n1.id = n2.id ↔ n1.start % seqL = n2.start % seqL))
      ∧ (defrag.leadsWithDigit n1.id = false → defrag.leadsWithDigit n2.id = false →
          (n1.uniqueID = n2.uniqueID ↔
            n1.id = n2.id ∧ n1.start % seqL = n2.start % seqL))
      ∧ (∀ a : assembly,
          (∀ o ∈ a.nodes, ∃ m : defrag.Match, 0 ≤ m.Start
            ∧ defrag.leadsWithDigit m.Entry = false ∧ defrag.new m seqL c = some o) →
          defrag.leadsWithDigit n2.id = false →
          (a.contains n2 = true ↔
            ∃ o ∈ a.nodes, o.id = n2.id ∧ o.start % seqL = n2.start % seqL)) := by
  obtain ⟨ha, hb, hc, hd⟩ := defrag.uniqueID_eq_cases m1 m2 seqL c n1 n2 hseqL hs1 hs2 h1 h2
  refine ⟨fun h => ha h.1 h.2, fun hu => ⟨hb hu, hc hu⟩, ?_, ?_⟩
  · intro hd1 hd2
    exact ⟨hd hd1 hd2, fun h => ha h.1 h.2⟩
  · intro a hnodes hd2
    unfold assembly.contains
    rw [containsLoop_iff]
    constructor
    · rintro ⟨o, ho, hu⟩
      obtain ⟨m, hms, hmd, hm⟩ := hnodes o ho
      have hf := defrag.new_fields m seqL c o hseqL hms hm
      have hod : defrag.leadsWithDigit o.id = false := by rw [hf.1]; exact hmd
      have := (defrag.uniqueID_eq_cases m m2 seqL c o n2 hseqL hms hs2 hm h2).2.2.2
        hod hd2 hu
      exact ⟨o, ho, this⟩
    · rintro ⟨o, ho, hid, hmod⟩
      obtain ⟨m, hms, hmd, hm⟩ := hnodes o ho
      exact ⟨o, ho,
        (defrag.uniqueID_eq_cases m m2 seqL c o n2 hseqL hms hs2 hm h2).1 hid hmod⟩

theorem uniqueID_identifies_witness :
    (⟨"abc", "ACGT", "12abc", 12, 60, 0⟩ : node).uniqueID
        = (⟨"abc", "ACGT", "12abc", 112, 160, 0⟩ : node).uniqueID
      ↔ (⟨"abc", "ACGT", "12abc", 12, 60, 0⟩ : node).id
          = (⟨"abc", "ACGT", "12abc", 112, 160, 0⟩ : node).id
        ∧ (⟨"abc", "ACGT", "12abc", 12, 60, 0⟩ : node).start % 100
          = (⟨"abc", "ACGT", "12abc", 112, 160, 0⟩ : node).start % 100 :=
  (uniqueID_identifies 100 (config.sample 20 5) (by decide)
    ⟨"abc", "acgt", 12, 60⟩ ⟨"abc", "acgt", 112, 160⟩
    ⟨"abc", "ACGT", "12abc", 12, 60, 0⟩ ⟨"abc", "ACGT", "12abc", 112, 160, 0⟩
    (by decide) (by decide) new_sample_eval.2.1 new_sample_eval.2.2).2.2.1
    (by decide) (by decide)

end assemble

/-! ## Termination of `distFor` -/

namespace traverse

/-- The second loop of `distFor` returns when each of its calls does. -/
theorem distLoop_returns (all : List node)
    (call : Nat → node → Dists → Option (Int × Dists)) (i : Nat)
    (hcall : ∀ (j : Nat) (m : node) (rest : List node) (d0 : Dists),
      all.drop (i + 1 + j) = m :: rest → (j = 0 → (d0 m).isSome = true) →
      ∃ v d1, call (i + j) m d0 = some (v, d1) ∧ Extends d0 d1 ∧ (d1 m).isSome = true) :
    ∀ (ms : List node) (j : Nat) (ss : List Int) (minD : Int) (d0 : Dists),
      all.drop (i + 1 + j) = ms → ss.length = ms.length →
      (j = 0 → ∀ m rest, ms = m :: rest → (d0 m).isSome = true) →
      ∃ v d1, distLoop call i j ms ss minD d0 = some (v, d1) ∧ Extends d0 d1
  | [], j, ss, minD, d0, _, _, _ => ⟨minD, d0, by simp [distLoop], Extends.refl d0⟩
  | m :: ms, j, [], minD, d0, _, hlen, _ => by simp at hlen
  | m :: ms, j, s :: ss, minD, d0, hpos, hlen, hc => by
    obtain ⟨v, d1, hcall1, hE1, _⟩ := hcall j m ms d0 hpos (fun hj => hc hj m ms rfl)
    have hpos2 : all.drop (i + 1 + (j + 1)) = ms :=
      drop_succ_of_drop all (i + 1 + j) m ms hpos
    obtain ⟨v2, d2, hloop, hE2⟩ :=
      distLoop_returns all call i hcall ms (j + 1) ss
        (if 1 + s + v < minD then 1 + s + v else minD) d1 hpos2
        (by simpa using hlen) (fun hj => absurd hj (Nat.succ_ne_zero j))
    refine ⟨v2, d2, ?_, hE1.trans hE2⟩
    simp only [distLoop, hcall1]
    exact hloop

/-- A call `distFor(i, f)` returns when `f` stands at position `i` or at
position `i + 1` of `all`, whatever the map holds, and leaves `f` with a
value; the recursion is no deeper than `2 * (number of nodes after f) + 2`
in the first case and one more in the second. The only fact used about
`all` is that its last node ends at or after `lastBP`. -/
theorem distFor_returns (all : List node) (L M : Int)
    (hlast : ∀ p f, all.drop p = [f] → f.«end» ≥ L) :
    ∀ (μ fuel i : Nat) (f : node) (later : List node) (d : Dists),
      μ < fuel →
      ((all.drop i = f :: later ∧ 2 * later.length + 2 ≤ μ)
        ∨ (all.drop (i + 1) = f :: later ∧ 2 * later.length + 3 ≤ μ)) →
      ∃ v d1, distFor all L M fuel i f d = some (v, d1)
        ∧ Extends d d1 ∧ (d1 f).isSome = true := by
  intro μ
  induction μ with
  | zero =>
    intro fuel i f later d _ h
    rcases h with h | h <;> omega
  | succ μ ih =>
    intro fuel i f later d hfuel hpos
    obtain ⟨fuel1, rfl⟩ : ∃ k, fuel = k + 1 := ⟨fuel - 1, by omega⟩
    have hfuel1 : μ < fuel1 := by omega
    obtain ⟨p, hp⟩ : ∃ p, all.drop p = f :: later := by
      rcases hpos with h | h
      · exact ⟨_, h.1⟩
      · exact ⟨_, h.1⟩
    cases hd : d f with
    | some v =>
      exact ⟨v, d, distFor_cached all L M fuel1 i f d v hd, Extends.refl d, by simp [hd]⟩
    | none =>
      by_cases hbase : f.«end» ≥ L
      · exact ⟨1, d.set f 1, distFor_base all L M fuel1 i f d hd hbase,
          Extends.set d f 1, by simp [set_self]⟩
      · have hstep : f.«end» < L := by omega
        cases later with
        | nil => exact absurd (hlast p f hp) hbase
        | cons next later2 =>
          rcases hpos with ⟨hA, hμ⟩ | ⟨hB, hμ⟩
          · have hrest : all.drop (i + 1) = next :: later2 :=
              drop_succ_of_drop all i f _ hA
            have hlenA := length_of_drop all (i + 1) next later2 hrest
            simp only [List.length_cons] at hμ
            obtain ⟨v1, d1, hinit, hE1, hn1⟩ :=
              ih fuel1 (i + 1) next later2 d hfuel1 (Or.inl ⟨hrest, by omega⟩)
            have hcall : ∀ (j : Nat) (m : node) (rest : List node) (d0 : Dists),
                all.drop (i + 1 + j) = m :: rest → (j = 0 → (d0 m).isSome = true) →
                ∃ v d2, distFor all L M fuel1 (i + j) m d0 = some (v, d2)
                  ∧ Extends d0 d2 ∧ (d2 m).isSome = true := by
              intro j m rest d0 hpos0 _
              have hlen0 := length_of_drop all (i + 1 + j) m rest hpos0
              refine ih fuel1 (i + j) m rest d0 hfuel1 (Or.inr ⟨?_, by omega⟩)
              rw [show i + j + 1 = i + 1 + j by omega]; exact hpos0
            obtain ⟨v2, d2, hloop, hE2⟩ :=
              distLoop_returns all (distFor all L M fuel1) i hcall (next :: later2) 0
                ((next :: later2).map (synthsToNext M f))
                (1 + synthsToNext M f next + v1) d1
                (by simpa using hrest) (by simp)
                (fun _ m rest e => by cases e; exact hn1)
            refine ⟨v2, d2.set f v2, ?_, (hE1.trans hE2).trans (Extends.set d2 f _),
              by simp [set_self]⟩
            rw [distFor_step all L M fuel1 i f d next later2 hd hstep hrest, hinit]
            simp only [hloop]
          · have hlenB := length_of_drop all (i + 1) f (next :: later2) hB
            simp only [List.length_cons] at hμ hlenB
            obtain ⟨v1, d1, hinit, hE1, hf1⟩ :=
              ih fuel1 (i + 1) f (next :: later2) d hfuel1
                (Or.inl ⟨hB, by simp only [List.length_cons]; omega⟩)
            obtain ⟨fuel2, hfuel2⟩ : ∃ k, fuel1 = k + 1 := ⟨fuel1 - 1, by omega⟩
            have hcall : ∀ (j : Nat) (m : node) (rest : List node) (d0 : Dists),
                all.drop (i + 1 + j) = m :: rest → (j = 0 → (d0 m).isSome = true) →
                ∃ v d2, distFor all L M fuel1 (i + j) m d0 = some (v, d2)
                  ∧ Extends d0 d2 ∧ (d2 m).isSome = true := by
              intro j m rest d0 hpos0 hc
              cases j with
              | zero =>
                have hsome := hc rfl
                obtain ⟨w, hw⟩ := Option.isSome_iff_exists.mp hsome
                refine ⟨w, d0, ?_, Extends.refl d0, hsome⟩
                rw [hfuel2]
                exact distFor_cached all L M fuel2 i m d0 w hw
              | succ j =>
                have hlen0 := length_of_drop all (i + 1 + (j + 1)) m rest hpos0
                refine ih fuel1 (i + (j + 1)) m rest d0 hfuel1 (Or.inr ⟨?_, by omega⟩)
                rw [show i + (j + 1) + 1 = i + 1 + (j + 1) by omega]; exact hpos0
            obtain ⟨v2, d2, hloop, hE2⟩ :=
              distLoop_returns all (distFor all L M fuel1) i hcall (f :: next :: later2) 0
                ((f :: next :: later2).map (synthsToNext M f))
                (1 + synthsToNext M f f + v1) d1
                (by simpa using hB) (by simp)
                (fun _ m rest e => by cases e; exact hf1)
            refine ⟨v2, d2.set f v2, ?_, (hE1.trans hE2).trans (Extends.set d2 f _),
              by simp [set_self]⟩
            rw [distFor_step all L M fuel1 i f d f (next :: later2) hd hstep hB, hinit]
            simp only [hloop]

end traverse

namespace traverse

theorem distFor_norest (all : List node) (L M : Int) (fuel i : Nat) (f : node) (d : Dists)
    (hd : d f = none) (hstep : f.«end» < L) (hrest : all.drop (i + 1) = []) :
    distFor all L M (fuel + 1) i f d = none := by
  have h2 : ¬ f.«end» ≥ L := by omega
  simp only [distFor, hd, h2, if_false, hrest, List.map_nil]

/-- The second loop of `distFor` returns the same when its calls are
replaced by calls that return the same wherever the first ones return. -/
theorem distLoop_mono (call1 call2 : Nat → node → Dists → Option (Int × Dists))
    (hmono : ∀ i m d r, call1 i m d = some r → call2 i m d = some r) (i : Nat) :
    ∀ (ms : List node) (j : Nat) (ss : List Int) (minD : Int) (d : Dists)
      (r : Int × Dists),
      distLoop call1 i j ms ss minD d = some r → distLoop call2 i j ms ss minD d = some r
  | [], j, ss, minD, d, r, h => by simpa [distLoop] using h
  | m :: ms, j, [], minD, d, r, h => by simp [distLoop] at h
  | m :: ms, j, s :: ss, minD, d, r, h => by
    simp only [distLoop] at h ⊢
    cases hc : call1 (i + j) m d with
    | none => rw [hc] at h; exact Option.noConfusion h
    | some vd =>
      rw [hc] at h
      rw [hmono _ _ _ _ hc]
      exact distLoop_mono call1 call2 hmono i ms (j + 1) ss _ _ r h

/-- A call of `distFor` that returns within a recursion depth returns the
same within any greater depth. -/
theorem distFor_mono_succ (all : List node) (L M : Int) :
    ∀ (fuel i : Nat) (f : node) (d : Dists) (r : Int × Dists),
      distFor all L M fuel i f d = some r → distFor all L M (fuel + 1) i f d = some r := by
  intro fuel
  induction fuel with
  | zero => intro i f d r h; simp [distFor] at h
  | succ fuel ih =>
    intro i f d r h
    cases hd : d f with
    | some v =>
      rw [distFor_cached all L M fuel i f d v hd] at h
      rw [distFor_cached all L M (fuel + 1) i f d v hd]
      exact h
    | none =>
      by_cases hbase : f.«end» ≥ L
      · rw [distFor_base all L M fuel i f d hd hbase] at h
        rw [distFor_base all L M (fuel + 1) i f d hd hbase]
        exact h
      · have hstep : f.«end» < L := by omega
        cases hrest : all.drop (i + 1) with
        | nil =>
          rw [distFor_norest all L M fuel i f d hd hstep hrest] at h
          exact Option.noConfusion h
        | cons next rest2 =>
          rw [distFor_step all L M fuel i f d next rest2 hd hstep hrest] at h
          rw [distFor_step all L M (fuel + 1) i f d next rest2 hd hstep hrest]
          cases hinit : distFor all L M fuel (i + 1) next d with
          | none => rw [hinit] at h; exact Option.noConfusion h
          | some vd =>
            rw [hinit] at h
            rw [ih _ _ _ _ hinit]
            obtain ⟨v, d1⟩ := vd
            simp only at h ⊢
            cases hloop : distLoop (distFor all L M fuel) i 0 (next :: rest2)
                ((next :: rest2).map (synthsToNext M f))
                (1 + synthsToNext M f next + v) d1 with
            | none => rw [hloop] at h; exact Option.noConfusion h
            | some md =>
              rw [hloop] at h
              rw [distLoop_mono (distFor all L M fuel) (distFor all L M (fuel + 1)) ih i _ _ _ _
                _ _ hloop]
              exact h

theorem distFor_mono (all : List node) (L M : Int) (fuel extra i : Nat) (f : node)
    (d : Dists) (r : Int × Dists) (h : distFor all L M fuel i f d = some r) :
    distFor all L M (fuel + extra) i f d = some r := by
  induction extra with
  | zero => exact h
  | succ k ih => exact distFor_mono_succ all L M (fuel + k) i f d r ih

end traverse

/-! ## Claim about the termination of `distanceToEnd` -/

namespace traverse

/-- C22: for every list of nodes, `seqL > 0` and `maxSynth > 0`, the call
`distFor(0, nodes[0])` of `distanceToEnd` returns: with a recursion depth of
`2 * len(nodes) + 3` or more `distanceToEnd` yields a map, the same map for
every greater depth, and no index is out of range on the way. The same holds
for a call `distFor(k, m)` entered, with any map, for the node `m` that
stands at position `k + 1` of the sorted list with the sink. -/
theorem distanceToEnd_terminates (srt : List node → List node)
    (hsrt : SortsBy nodeLess srt) (nodes : List node) (seqL maxSynth : Int)
    (_hseqL : 0 < seqL) (_hmaxSynth : 0 < maxSynth) (fuel : Nat)
    (hfuel : 2 * nodes.length + 3 ≤ fuel) :
    (∃ dists, distanceToEnd srt fuel nodes seqL maxSynth = some dists
        ∧ ∀ extra : Nat, distanceToEnd srt (fuel + extra) nodes seqL maxSynth = some dists)
      ∧ (∀ (k : Nat) (m : node) (d : Dists),
          (srt nodes ++ [sink (2 * seqL)])[k + 1]? = some m →
          ∃ v d1, distFor (srt nodes ++ [sink (2 * seqL)]) (2 * seqL) maxSynth fuel k m d
            = some (v, d1) ∧ (d1 m).isSome = true) := by
  have hperm := (hsrt nodes).1
  have hlast : ∀ p f, (srt nodes ++ [sink (2 * seqL)]).drop p = [f] → f.«end» ≥ 2 * seqL := by
    intro p f h
    rw [last_of_drop _ _ _ p h]
    exact sink_base _
  have hlenall : (srt nodes ++ [sink (2 * seqL)]).length = nodes.length + 1 := by
    rw [List.length_append, hperm.length_eq]; rfl
  constructor
  · obtain ⟨first, later, hall⟩ : ∃ first later,
        srt nodes ++ [sink (2 * seqL)] = first :: later := by
      cases h : srt nodes ++ [sink (2 * seqL)] with
      | nil => simp at h
      | cons a l => exact ⟨a, l, rfl⟩
    have hlen : later.length = nodes.length := by
      have h1 := congrArg List.length hall
      rw [hlenall, List.length_cons] at h1
      omega
    obtain ⟨v, d1, hrun, _, _⟩ :=
      distFor_returns (srt nodes ++ [sink (2 * seqL)]) (2 * seqL) maxSynth hlast
        (2 * later.length + 2) fuel 0 first later (fun _ => none) (by omega)
        (Or.inl ⟨by rw [hall]; rfl, le_refl _⟩)
    refine ⟨d1.delete (sink (2 * seqL)), ?_, ?_⟩
    · rw [distanceToEnd_eq srt fuel nodes seqL maxSynth first later hall, ← hall, hrun]
    · intro extra
      have := distFor_mono _ (2 * seqL) maxSynth fuel extra 0 first (fun _ => none) _ hrun
      rw [distanceToEnd_eq srt (fuel + extra) nodes seqL maxSynth first later hall, ← hall,
        this]
  · intro k m d hm
    have hpos := drop_of_getElem? _ (k + 1) m hm
    have hlen := length_of_drop _ (k + 1) m _ hpos
    rw [hlenall] at hlen
    obtain ⟨v, d1, hrun, _, hsome⟩ :=
      distFor_returns (srt nodes ++ [sink (2 * seqL)]) (2 * seqL) maxSynth hlast
        (2 * ((srt nodes ++ [sink (2 * seqL)]).drop (k + 1 + 1)).length + 3) fuel k m _ d
        (by omega) (Or.inr ⟨hpos, le_refl _⟩)
    exact ⟨v, d1, hrun, hsome⟩

theorem distanceToEnd_terminates_witness :
    ∃ dists, distanceToEnd (sortSlice nodeLess) 9
        [⟨10, 50⟩, ⟨0, 100⟩, ⟨10, 50⟩] 100 500 = some dists :=
  (distanceToEnd_terminates (sortSlice nodeLess) nodeLess_sortSlice
    [⟨10, 50⟩, ⟨0, 100⟩, ⟨10, 50⟩] 100 500 (by decide) (by decide) 9 (by decide)).1.imp
    (fun _ h => h.1)

end traverse
